import Mathlib

/-! # Einbürgerungstest practice app: progress tracker and question store

A shallow embedding of `src/js/progress.js` (class `ProgressTracker`) and of the
data handling of `src/js/app.js` (`shuffle`, `normalizeQuestion`, `applySearch`,
`selectAnswer`, `reveal`, `resetSession`, `escapeHtml`), followed by the
properties proved about them.

Modelling conventions

* `this.data` is a JavaScript object with string keys.  It is embedded as an
  association list `List (String × Progress)` in insertion order (the order
  `Object.values` and `JSON.stringify` enumerate non-index keys in).
* The counters are JavaScript numbers that only ever hold non-negative
  integers; they are embedded as `Nat` (exact below `2 ^ 53`).
* `new Date().toISOString()` reads the wall clock.  Every clock reading is an
  explicit `String` argument of the operation that performs it.
* `save()` only writes `localStorage`, which is read back by the constructor
  alone; it has no effect on `this.data` and is not part of the state.
* Question numbers are integers (the identifiers of the question bank); the
  template literal `q_${questionNumber}` prints them in decimal.
* `Math.random` is a platform built-in; the draws are a parameter of `shuffle`.
* `JSON.stringify` and `JSON.parse` are platform built-ins.  `export` and
  `import` take them as a parameter; namespace `JSON` models them.
-/

/-! ## The platform's `JSON` object

`JSON.stringify(value, null, 2)` and `JSON.parse(text)` are not code of the
repository.  They are modelled after ECMA-262 on the values the tracker deals
with: `null`, booleans, integers, strings, arrays and objects.  Numbers are
integers (printed in decimal, as JavaScript does below `10 ^ 21`); strings are
sequences of Unicode scalar values.  A numeral with a fraction or an exponent,
or an escaped UTF-16 surrogate, denotes a value outside `JSON.Value`; `parse`
has nothing to return for it and answers `none`, like for a syntax error.
-/

namespace JSON

/-- A JSON value; an object is its list of members in insertion order. -/
inductive Value where
  | null
  | bool (b : Bool)
  | number (n : Int)
  | string (s : String)
  | array (items : List Value)
  | object (members : List (String × Value))
  deriving Repr

/-- JSON white space: space, tab, line feed, carriage return. -/
def isWhitespace (c : Char) : Bool :=
  c = ' ' || c = '\t' || c = '\n' || c = '\r'

/-- Drops leading white space. -/
def skipWhitespace : List Char → List Char
  | [] => []
  | c :: cs => if isWhitespace c then skipWhitespace cs else c :: cs

/-- Value of a hexadecimal digit. -/
def hexValue (c : Char) : Option Nat :=
  if '0' ≤ c ∧ c ≤ '9' then some (c.toNat - 48)
  else if 'a' ≤ c ∧ c ≤ 'f' then some (c.toNat - 87)
  else if 'A' ≤ c ∧ c ≤ 'F' then some (c.toNat - 55)
  else none

/-- The character of a `\uXXXX` escape. -/
def parseHex4 (h1 h2 h3 h4 : Char) : Option Char :=
  match hexValue h1, hexValue h2, hexValue h3, hexValue h4 with
  | some a, some b, some c, some d =>
    let n := ((a * 16 + b) * 16 + c) * 16 + d
    if 0xD800 ≤ n ∧ n ≤ 0xDFFF then none else some (Char.ofNat n)
  | _, _, _, _ => none

/-- The character of a two-character escape. -/
def unescape (e : Char) : Option Char :=
  if e = '"' then some '"'
  else if e = '\\' then some '\\'
  else if e = '/' then some '/'
  else if e = 'b' then some (Char.ofNat 8)
  else if e = 'f' then some (Char.ofNat 12)
  else if e = 'n' then some '\n'
  else if e = 'r' then some '\r'
  else if e = 't' then some '\t'
  else none

/-- Reads one character of a string literal, decoding an escape sequence. -/
def readChar : List Char → Option (Char × List Char)
  | [] => none
  | c :: cs =>
    if c = '\\' then
      match cs with
      | [] => none
      | e :: cs1 =>
        if e = 'u' then
          match cs1 with
          | h1 :: h2 :: h3 :: h4 :: cs2 => (parseHex4 h1 h2 h3 h4).map (fun x => (x, cs2))
          | _ => none
        else (unescape e).map (fun x => (x, cs1))
    else if c.toNat < 0x20 then none
    else some (c, cs)

/-- Reads a string literal after its opening quote: the characters up to the
closing quote and the rest of the input. -/
def parseStringBody : Nat → List Char → Option (List Char × List Char)
  | 0, _ => none
  | fuel + 1, cs =>
    match cs with
    | [] => none
    | c :: rest =>
      if c = '"' then some ([], rest)
      else
        match readChar (c :: rest) with
        | none => none
        | some (x, rest1) => (parseStringBody fuel rest1).map (fun r => (x :: r.1, r.2))

/-- Value of a string of decimal digits, most significant first. -/
def decimalValue (cs : List Char) : Nat :=
  cs.foldl (fun acc c => 10 * acc + (c.toNat - 48)) 0

/-- Reads an integer numeral: an optional minus sign and digits without a
leading zero. -/
def parseNumber (cs : List Char) : Option (Int × List Char) :=
  let neg := cs.head? = some '-'
  let cs := if neg then cs.tail else cs
  let ds := cs.takeWhile Char.isDigit
  let rest := cs.dropWhile Char.isDigit
  if ds = [] then none
  else if 1 < ds.length ∧ ds.head? = some '0' then none
  else if rest.head? = some '.' ∨ rest.head? = some 'e' ∨ rest.head? = some 'E' then none
  else
    let n : Nat := decimalValue ds
    some (if neg then -(n : Int) else (n : Int), rest)

/-- Defines member `k` of an object under construction: a repeated name keeps
its place and takes the later value. -/
def setMember (ms : List (String × Value)) (k : String) (v : Value) : List (String × Value) :=
  match ms with
  | [] => [(k, v)]
  | (k', v') :: rest => if k' = k then (k', v) :: rest else (k', v') :: setMember rest k v

mutual
/-- Reads one JSON value from the front of the input (which starts at a token). -/
def parseValue : Nat → List Char → Option (Value × List Char)
  | 0, _ => none
  | fuel + 1, cs =>
    match cs with
    | [] => none
    | c :: rest =>
      if c = '{' then
        match skipWhitespace rest with
        | [] => none
        | c1 :: rest1 =>
          if c1 = '}' then some (.object [], rest1)
          else parseMembers fuel (c1 :: rest1) []
      else if c = '[' then
        match skipWhitespace rest with
        | [] => none
        | c1 :: rest1 =>
          if c1 = ']' then some (.array [], rest1)
          else parseItems fuel (c1 :: rest1) []
      else if c = '"' then
        (parseStringBody fuel rest).map (fun r => (.string (String.mk r.1), r.2))
      else if c = 't' then
        if rest.take 3 = ['r', 'u', 'e'] then some (.bool true, rest.drop 3) else none
      else if c = 'f' then
        if rest.take 4 = ['a', 'l', 's', 'e'] then some (.bool false, rest.drop 4) else none
      else if c = 'n' then
        if rest.take 3 = ['u', 'l', 'l'] then some (.null, rest.drop 3) else none
      else
        (parseNumber (c :: rest)).map (fun r => (.number r.1, r.2))
/-- Reads the members of an object up to and including the closing brace. -/
def parseMembers : Nat → List Char → List (String × Value) → Option (Value × List Char)
  | 0, _, _ => none
  | fuel + 1, cs, acc =>
    match cs with
    | [] => none
    | c :: rest =>
      if c = '"' then
        match parseStringBody fuel rest with
        | none => none
        | some (k, rest1) =>
          match skipWhitespace rest1 with
          | [] => none
          | c2 :: rest2 =>
            if c2 = ':' then
              match parseValue fuel (skipWhitespace rest2) with
              | none => none
              | some (v, rest3) =>
                match skipWhitespace rest3 with
                | [] => none
                | c4 :: rest4 =>
                  if c4 = ',' then
                    parseMembers fuel (skipWhitespace rest4) (setMember acc (String.mk k) v)
                  else if c4 = '}' then
                    some (.object (setMember acc (String.mk k) v), rest4)
                  else none
            else none
      else none
/-- Reads the items of an array up to and including the closing bracket. -/
def parseItems : Nat → List Char → List Value → Option (Value × List Char)
  | 0, _, _ => none
  | fuel + 1, cs, acc =>
    match parseValue fuel cs with
    | none => none
    | some (v, rest1) =>
      match skipWhitespace rest1 with
      | [] => none
      | c2 :: rest2 =>
        if c2 = ',' then parseItems fuel (skipWhitespace rest2) (acc ++ [v])
        else if c2 = ']' then some (.array (acc ++ [v]), rest2)
        else none
end

/-- `JSON.parse(text)`: one value surrounded by optional white space; `none`
stands for a thrown `SyntaxError`.  The recursion budget is ample: at most two
nested calls are made per character read. -/
def parse (text : String) : Option Value :=
  match parseValue (2 * text.data.length + 2) (skipWhitespace text.data) with
  | none => none
  | some (v, rest) => if skipWhitespace rest = [] then some v else none

/-- `QuoteJSONString` on one character. -/
def quoteChar (c : Char) : List Char :=
  if c = '"' then ['\\', '"']
  else if c = '\\' then ['\\', '\\']
  else if c = Char.ofNat 8 then ['\\', 'b']
  else if c = Char.ofNat 12 then ['\\', 'f']
  else if c = '\n' then ['\\', 'n']
  else if c = '\r' then ['\\', 'r']
  else if c = '\t' then ['\\', 't']
  else if c.toNat < 0x20 then
    ['\\', 'u', '0', '0', Nat.digitChar (c.toNat / 16), Nat.digitChar (c.toNat % 16)]
  else [c]

/-- The characters of a string literal between its quotes. -/
def quoteBody : List Char → List Char
  | [] => []
  | c :: cs => quoteChar c ++ quoteBody cs

/-- `QuoteJSONString`. -/
def quote (s : String) : List Char :=
  '"' :: (quoteBody s.data ++ ['"'])

mutual
/-- The text of a value at indentation `ind`, with a gap of two spaces
(`SerializeJSONProperty`). -/
def render (ind : List Char) : Value → List Char
  | .null => ['n', 'u', 'l', 'l']
  | .bool b => if b then ['t', 'r', 'u', 'e'] else ['f', 'a', 'l', 's', 'e']
  | .number n => (toString n).data
  | .string s => quote s
  | .array xs =>
    match xs with
    | [] => ['[', ']']
    | _ :: _ =>
      '[' :: '\n' :: ' ' :: ' ' :: ind
        ++ (renderItems (' ' :: ' ' :: ind) xs ++ '\n' :: ind ++ [']'])
  | .object ms =>
    match ms with
    | [] => ['{', '}']
    | _ :: _ =>
      '{' :: '\n' :: ' ' :: ' ' :: ind
        ++ (renderMembers (' ' :: ' ' :: ind) ms ++ '\n' :: ind ++ ['}'])
/-- The items of an array, one per line. -/
def renderItems (ind : List Char) : List Value → List Char
  | [] => []
  | x :: rest =>
    render ind x ++
      match rest with
      | [] => []
      | _ :: _ => ',' :: '\n' :: ind ++ renderItems ind rest
/-- The members of an object, one per line. -/
def renderMembers (ind : List Char) : List (String × Value) → List Char
  | [] => []
  | (k, v) :: rest =>
    quote k ++ ':' :: ' ' :: render ind v ++
      match rest with
      | [] => []
      | _ :: _ => ',' :: '\n' :: ind ++ renderMembers ind rest
end

/-- `JSON.stringify(value, null, 2)`. -/
def stringify (v : Value) : String :=
  String.mk (render [] v)

/-- The text of `v` at indentation `ind` starts with a token character and is
read back as `v` whenever it is followed by a comma, a line break or nothing. -/
def ParsesBack (ind : List Char) (v : Value) : Prop :=
  (∃ c t, render ind v = c :: t ∧ isWhitespace c = false) ∧
  ∀ (fuel : Nat) (rest : List Char), (render ind v ++ rest).length < fuel →
    (∀ c, rest.head? = some c → c = ',' ∨ c = '\n') →
    parseValue fuel (render ind v ++ rest) = some (v, rest)

end JSON

/-! ## The progress tracker (`src/js/progress.js`) -/

namespace ProgressTracker

/-- `const MASTERY_THRESHOLD = 2` (progress.js line 7). -/
def MASTERY_THRESHOLD : Nat := 2

/-- The per-question progress object.  `firstAttempt` is optional: the record
literal of `recordAttempt` sets it, the documented storage format omits it. -/
structure Progress where
  attempts : Nat
  correct : Nat
  incorrect : Nat
  lastAttempt : Option String
  mastered : Bool
  firstAttempt : Option String
  deriving DecidableEq, Repr

/-- The object held in `this.data`: property name and value, in insertion order. -/
abbrev Store := List (String × Progress)

/-- The template literal that builds a property name from a question number
(progress.js lines 55, 62, 182). -/
def key (questionNumber : Int) : String :=
  "q_" ++ toString questionNumber

/-- Property read `obj[k]`; `none` stands for `undefined`. -/
def get (d : Store) (k : String) : Option Progress :=
  match d with
  | [] => none
  | (k', p) :: rest => if k' = k then some p else get rest k

/-- Property write `obj[k] = p`: an existing property keeps its position, a new
one is appended. -/
def set (d : Store) (k : String) (p : Progress) : Store :=
  match d with
  | [] => [(k, p)]
  | (k', p') :: rest => if k' = k then (k', p) :: rest else (k', p') :: set rest k p

/-- Property removal `delete obj[k]`. -/
def delete (d : Store) (k : String) : Store :=
  d.filter (fun e => decide (e.1 ≠ k))

/-- The store of a tracker with nothing saved (`load` returning `{}`). -/
def empty : Store := []

/-- `getQuestionProgress(questionNumber)` (progress.js lines 54-56).  A progress
object is truthy, so `|| null` only turns `undefined` into `null`. -/
def getQuestionProgress (d : Store) (questionNumber : Int) : Option Progress :=
  get d (key questionNumber)

/-- The record literal of progress.js lines 64-71; `now` is the clock reading
of line 70. -/
def freshProgress (now : String) : Progress :=
  { attempts := 0, correct := 0, incorrect := 0, lastAttempt := none,
    mastered := false, firstAttempt := some now }

/-- The body of `recordAttempt` after the record has been fetched
(progress.js lines 74-88); `now` is the clock reading of line 76. -/
def applyAttempt (progress : Progress) (isCorrect : Bool) (now : String) : Progress :=
  let progress := { progress with attempts := progress.attempts + 1 }
  let progress := { progress with lastAttempt := some now }
  if isCorrect then
    let progress := { progress with correct := progress.correct + 1 }
    if progress.correct ≥ MASTERY_THRESHOLD then
      { progress with mastered := true }
    else
      progress
  else
    let progress := { progress with incorrect := progress.incorrect + 1 }
    { progress with mastered := false }

/-- `recordAttempt(questionNumber, isCorrect)` (progress.js lines 61-92).
`created` is the clock reading used if the record has to be created, `now` the
one stored in `lastAttempt`.  Returns the new `this.data` and the returned
record. -/
def recordAttempt (d : Store) (questionNumber : Int) (isCorrect : Bool)
    (created now : String) : Store × Progress :=
  let key := key questionNumber
  let d := if (get d key).isNone then set d key (freshProgress created) else d
  match get d key with
  | some progress =>
    let progress := applyAttempt progress isCorrect now
    (set d key progress, progress)
  | none =>
    -- not reached: the property was written just above
    let progress := applyAttempt (freshProgress created) isCorrect now
    (set d key progress, progress)

/-- `getQuestionStatus(questionNumber)` (progress.js lines 97-102). -/
def getQuestionStatus (d : Store) (questionNumber : Int) : String :=
  match getQuestionProgress d questionNumber with
  | none => "new"
  | some progress => if progress.mastered then "mastered" else "attempted"

/-- `resetQuestion(questionNumber)` (progress.js lines 181-185). -/
def resetQuestion (d : Store) (questionNumber : Int) : Store :=
  delete d (key questionNumber)

/-- `resetAll()` (progress.js lines 190-193). -/
def resetAll (_d : Store) : Store :=
  []

/-- One call on the tracker that changes `this.data`. -/
inductive Op where
  | recordAttempt (questionNumber : Int) (isCorrect : Bool) (created now : String)
  | resetQuestion (questionNumber : Int)
  | resetAll
  deriving DecidableEq, Repr

/-- The effect of one call on `this.data`. -/
def step (d : Store) : Op → Store
  | .recordAttempt q c created now => (recordAttempt d q c created now).1
  | .resetQuestion q => resetQuestion d q
  | .resetAll => resetAll d

/-- The effect of a sequence of calls, first call first. -/
def run (d : Store) (ops : List Op) : Store :=
  ops.foldl step d

/-- The value of the `accuracy` field of a statistics object. -/
inductive Accuracy where
  /-- The number `0` of the initial object literal. -/
  | zero
  /-- The string `((totalCorrect / totalAttempts) * 100).toFixed(1)`, kept as the
  dividend and the divisor of the division it is computed from. -/
  | toFixed1 (totalCorrect totalAttempts : Nat)
  deriving DecidableEq, Repr

/-- The statistics object of `getStats` and `getStatsForQuestions`. -/
structure Stats where
  total : Nat
  new : Nat
  attempted : Nat
  mastered : Nat
  totalAttempts : Nat
  totalCorrect : Nat
  totalIncorrect : Nat
  accuracy : Accuracy
  deriving DecidableEq, Repr

/-- The body of the `forEach` callback of `getStatsForQuestions`
(progress.js lines 154-169). -/
def statsForQuestion (d : Store) (stats : Stats) (qNum : Int) : Stats :=
  match getQuestionProgress d qNum with
  | none => { stats with new := stats.new + 1 }
  | some progress =>
    let stats := { stats with totalAttempts := stats.totalAttempts + progress.attempts }
    let stats := { stats with totalCorrect := stats.totalCorrect + progress.correct }
    let stats := { stats with totalIncorrect := stats.totalIncorrect + progress.incorrect }
    if progress.mastered then
      { stats with mastered := stats.mastered + 1 }
    else
      { stats with attempted := stats.attempted + 1 }

/-- The final accuracy assignment (progress.js lines 171-173, also 132-134). -/
def withAccuracy (stats : Stats) : Stats :=
  if stats.totalAttempts > 0 then
    { stats with accuracy := .toFixed1 stats.totalCorrect stats.totalAttempts }
  else
    stats

/-- `getStatsForQuestions(questionNumbers)` (progress.js lines 142-176). -/
def getStatsForQuestions (d : Store) (questionNumbers : List Int) : Stats :=
  let stats : Stats :=
    { total := questionNumbers.length, new := 0, attempted := 0, mastered := 0,
      totalAttempts := 0, totalCorrect := 0, totalIncorrect := 0, accuracy := .zero }
  let stats := questionNumbers.foldl (statsForQuestion d) stats
  withAccuracy stats

/-- The platform object `JSON` as seen by the tracker: `stringify v` is
`JSON.stringify(v, null, 2)` and `parse s` is `JSON.parse(s)`, with `none` for a
thrown `SyntaxError`.  `Value` is the type of what `this.data` may hold. -/
structure JsonApi (Value : Type) where
  stringify : Value → String
  parse : String → Option Value

/-- `export()` (progress.js lines 198-200). -/
def «export» {Value : Type} (JSON : JsonApi Value) (data : Value) : String :=
  JSON.stringify data

/-- `import(jsonString)` (progress.js lines 205-215): the returned flag and the new
`this.data`.  The `catch` branch is taken exactly when `JSON.parse` throws
(`save` catches its own failures). -/
def «import» {Value : Type} (JSON : JsonApi Value) (data : Value) (jsonString : String) :
    Bool × Value :=
  match JSON.parse jsonString with
  | some imported => (true, imported)
  | none => (false, data)

/-- The platform's `JSON` object, as modelled in namespace `JSON`. -/
def platformJSON : JsonApi JSON.Value where
  stringify := JSON.stringify
  parse := JSON.parse

/-- The JavaScript object a progress record denotes: its properties in the
order of the record literal of `recordAttempt`; an absent `lastAttempt` is
`null`, an absent `firstAttempt` is no property. -/
def recordValue (p : Progress) : JSON.Value :=
  .object
    ([("attempts", .number (p.attempts : Int)),
      ("correct", .number (p.correct : Int)),
      ("incorrect", .number (p.incorrect : Int)),
      ("lastAttempt", match p.lastAttempt with
        | none => .null
        | some t => .string t),
      ("mastered", .bool p.mastered)] ++
     match p.firstAttempt with
     | none => []
     | some t => [("firstAttempt", .string t)])

/-- The JavaScript value of `this.data`. -/
def toValue (d : Store) : JSON.Value :=
  .object (d.map (fun e => (e.1, recordValue e.2)))

/-- One `recordAttempt` call together with its two clock readings. -/
structure Call where
  questionNumber : Int
  isCorrect : Bool
  created : String
  now : String
  deriving DecidableEq, Repr

/-- The call as an operation on the tracker. -/
def Call.toOp (c : Call) : Op :=
  .recordAttempt c.questionNumber c.isCorrect c.created c.now

/-- The calls of a sequence that are made on question `id`. -/
def callsOn (id : Int) (calls : List Call) : List Call :=
  calls.filter (fun c => decide (c.questionNumber = id))

/-! ### Auxiliary definitions used in the proofs -/

/-- Reads back a decimal numeral with an optional leading minus sign. -/
def decimalInt (cs : List Char) : Int :=
  if '-' ∈ cs then -((JSON.decimalValue (cs.filter (fun c => decide (c ≠ '-'))) : Nat) : Int)
  else ((JSON.decimalValue cs : Nat) : Int)

end ProgressTracker

/-! ## The question store (`src/js/app.js`) -/

namespace App

/-- The draws of one `shuffle` call: `rand i` is the value of
`Math.floor(Math.random() * (i + 1))` in the iteration with loop index `i`
(`Math.random()` lies in `[0, 1)`, so the value lies in `0..i`). -/
abbrev Draws := (i : Nat) → Fin (i + 1)

/-- The destructuring swap `[arr[i], arr[j]] = [arr[j], arr[i]]` (app.js line 44):
both elements are read, then `arr[i]` and `arr[j]` are written.  Both indices
are in range in every call made by `shuffle`. -/
def swap {α : Type} (arr : List α) (i j : Nat) : List α :=
  match arr[i]?, arr[j]? with
  | some x, some y => (arr.set i y).set j x
  | _, _ => arr

/-- The two arrays alive during a `shuffle` call: the argument `array` and the
local copy `arr`. -/
structure ShuffleState (α : Type) where
  array : List α
  arr : List α

/-- The `for` loop of `shuffle` (app.js lines 42-45), entered with loop index `i`. -/
def shuffleLoop {α : Type} (rand : Draws) : Nat → ShuffleState α → ShuffleState α
  | 0, s => s
  | i + 1, s =>
    let j := rand (i + 1)
    shuffleLoop rand i { s with arr := swap s.arr (i + 1) j }

/-- The state in which `shuffle(array)` returns (app.js lines 40-47). -/
def shuffleRun {α : Type} (rand : Draws) (array : List α) : ShuffleState α :=
  let s : ShuffleState α := { array := array, arr := array }
  shuffleLoop rand (s.arr.length - 1) s

/-- `shuffle(array)`: the returned array. -/
def shuffle {α : Type} (rand : Draws) (array : List α) : List α :=
  (shuffleRun rand array).arr

/-- The draws `shuffle` really makes on an array of length `n`: one `j` in
`0..i` for each loop index `i = n - 1, ..., 1`; component `k` is the draw of
loop index `k + 1`. -/
abbrev DrawSeq (n : Nat) := (k : Fin (n - 1)) → Fin (k.val + 2)

/-- A draw sequence as a random source; the indices the loop never visits are
filled with `0`. -/
def drawsOf {n : Nat} (v : DrawSeq n) : Draws := fun i =>
  if h : 1 ≤ i ∧ i < n then
    ⟨(v ⟨i - 1, by omega⟩).val, by
      have hlt : (v ⟨i - 1, by omega⟩).val < (i - 1) + 2 := (v ⟨i - 1, by omega⟩).isLt
      omega⟩
  else 0

end App

/-! ## Overall statistics (`src/js/progress.js`) -/

namespace ProgressTracker

/-- The body of the `forEach` callback of `getStats` (progress.js lines 119-130). -/
def statsForRecord (stats : Stats) (progress : Progress) : Stats :=
  let stats := { stats with total := stats.total + 1 }
  let stats := { stats with totalAttempts := stats.totalAttempts + progress.attempts }
  let stats := { stats with totalCorrect := stats.totalCorrect + progress.correct }
  let stats := { stats with totalIncorrect := stats.totalIncorrect + progress.incorrect }
  if progress.mastered then
    { stats with mastered := stats.mastered + 1 }
  else
    { stats with attempted := stats.attempted + 1 }

/-- `getStats()` (progress.js lines 107-137); `Object.values` enumerates the
records in insertion order. -/
def getStats (d : Store) : Stats :=
  let stats : Stats :=
    { total := 0, new := 0, attempted := 0, mastered := 0,
      totalAttempts := 0, totalCorrect := 0, totalIncorrect := 0, accuracy := .zero }
  let stats := (d.map Prod.snd).foldl statsForRecord stats
  withAccuracy stats

end ProgressTracker

/-! ## Questions, search and reveal (`src/js/app.js`)

A field that holds a string, `null` or `undefined` is a `Text`; `===` on such
fields is equality of `Text`.  A question number is an integer or absent.
Question objects are shared by reference between `questions` and
`filteredQuestions`: an object is referred to by its index in `questions`.
`trim` and `toLowerCase` are platform built-ins and are parameters.
-/

namespace App

open ProgressTracker

/-- A JavaScript value that is a string, `null` or `undefined`. -/
inductive Text where
  | undefined
  | null
  | str (s : String)
  deriving DecidableEq, Repr

/-- JavaScript truthiness of a `Text`: a non-empty string. -/
def Text.truthy : Text → Bool
  | .str s => decide (s ≠ "")
  | _ => false

/-- The expression `x || ''` for a text field. -/
def Text.orEmpty (x : Text) : String :=
  match x with
  | .str s => if s ≠ "" then s else ""
  | _ => ""

/-- The expression `x || null`. -/
def Text.orNull (x : Text) : Text :=
  if x.truthy then x else .null

/-- JavaScript truthiness of a question number: present and not `0`. -/
def truthyNumber (n : Option Int) : Bool :=
  match n with
  | some k => decide (k ≠ 0)
  | none => false

/-- An answer object of the source data. -/
structure RawAnswer where
  letter : Text
  text_german : Text
  text_english : Text
  text_arabic : Text
  is_correct : Option Bool
  deriving DecidableEq, Repr

/-- A question object of the source data; `answers` is `none` when the field is
not an array. -/
structure RawQuestion where
  question_number : Option Int
  question_german : Text
  question_english : Text
  question_arabic : Text
  answers : Option (List RawAnswer)
  correct_answer : Text
  image_path : Text
  deriving DecidableEq, Repr

/-- A normalized answer (app.js lines 99-105). -/
structure Answer where
  letter : Text
  text_german : String
  text_english : String
  text_arabic : String
  is_correct : Bool
  deriving DecidableEq, Repr

/-- A normalized question (app.js lines 106-119). -/
structure Question where
  question_number : Option Int
  question_german : String
  question_english : String
  question_arabic : String
  answers : List Answer
  correct_answer : Text
  image_path : Text
  selected : Text
  revealed : Bool
  showAll : Bool
  progress : Option Progress
  status : String
  deriving DecidableEq, Repr

/-- The callback of `answers.map` in `normalizeQuestion` (app.js lines 99-105). -/
def normalizeAnswer (a : RawAnswer) : Answer :=
  { letter := a.letter,
    text_german := a.text_german.orEmpty,
    text_english := a.text_english.orEmpty,
    text_arabic := a.text_arabic.orEmpty,
    is_correct := a.is_correct == some true }

/-- The correct-answer marker computed by app.js lines 94-98. -/
def deriveCorrect (answers : List RawAnswer) (correct_answer : Text) : Text :=
  let correct := correct_answer
  if !correct.truthy then
    match answers.find? (fun a => a.is_correct == some true) with
    | some found => found.letter
    | none => correct
  else correct

/-- `normalizeQuestion(q)` (app.js lines 92-128); `rand` are the draws of the
answer shuffle and `d` is the data of the progress tracker. -/
def normalizeQuestion (rand : Draws) (d : Store) (q : RawQuestion) : Question :=
  let answers : List RawAnswer :=
    match q.answers with
    | some answers => answers
    | none => []
  let correct := deriveCorrect answers q.correct_answer
  let normalizedAnswers := answers.map normalizeAnswer
  let questionData : Question :=
    { question_number := q.question_number,
      question_german := q.question_german.orEmpty,
      question_english := q.question_english.orEmpty,
      question_arabic := q.question_arabic.orEmpty,
      answers := shuffle rand normalizedAnswers,
      correct_answer := correct,
      image_path := q.image_path.orNull,
      selected := .null,
      revealed := false,
      showAll := false,
      progress := none,
      status := "new" }
  match q.question_number with
  | some n =>
    if truthyNumber (some n) then
      { questionData with
        progress := getQuestionProgress d n,
        status := getQuestionStatus d n }
    else questionData
  | none => questionData

/-- The fields of the app object that the modelled methods read or write,
together with the data of the global `progressTracker`. -/
structure AppState where
  questions : List Question
  filteredQuestions : List Nat
  search : String
  statusFilter : String
  answeredCount : Nat
  revealedCount : Nat
  correctCount : Nat
  progressStats : Stats
  data : Store
  deriving DecidableEq, Repr

/-- The question objects that `filteredQuestions` refers to. -/
def AppState.filtered (s : AppState) : List Question :=
  s.filteredQuestions.filterMap (fun i => s.questions[i]?)

/-- `recalcStats()` (app.js lines 225-229). -/
def recalcStats (s : AppState) : AppState :=
  { s with
    answeredCount := (s.filtered.filter (fun q => q.selected.truthy)).length,
    revealedCount := (s.filtered.filter (fun q => q.revealed)).length,
    correctCount :=
      (s.filtered.filter (fun q => q.revealed && decide (q.selected = q.correct_answer))).length }

/-- `updateProgressStats()` (app.js lines 234-237). -/
def updateProgressStats (s : AppState) : AppState :=
  let questionNumbers : List Int :=
    (s.filtered.map (fun q => q.question_number)).filterMap
      (fun n => if truthyNumber n then n else none)
  { s with progressStats := getStatsForQuestions s.data questionNumbers }

/-- The platform's `String.prototype.trim` and `String.prototype.toLowerCase`. -/
structure StringApi where
  trim : String → String
  toLowerCase : String → String

/-- `[a, b, c].join(' ')` on strings. -/
def joinSpace (parts : List String) : String :=
  " ".intercalate parts

/-- `text.includes(term)`: `term` occurs in `text` as a contiguous substring. -/
def includes (text term : String) : Bool :=
  decide (term.data <:+: text.data)

/-- The callback of the text filter of `applySearch` (app.js lines 139-143). -/
def matchesTerm (S : StringApi) (term : String) (q : Question) : Bool :=
  let base := S.toLowerCase
    (joinSpace [q.question_german, q.question_english, q.question_arabic])
  let answerText := S.toLowerCase
    (joinSpace (q.answers.map
      (fun a => a.text_german ++ " " ++ a.text_english ++ " " ++ a.text_arabic)))
  includes base term || includes answerText term

/-- `applySearch()` (app.js lines 133-153). -/
def applySearch (S : StringApi) (s : AppState) : AppState :=
  let term := S.toLowerCase (S.trim s.search)
  let filtered : List Nat := List.range s.questions.length
  let filtered :=
    if term ≠ "" then
      filtered.filter (fun i =>
        match s.questions[i]? with
        | some q => matchesTerm S term q
        | none => false)
    else filtered
  let filtered :=
    if s.statusFilter ≠ "all" then
      filtered.filter (fun i =>
        match s.questions[i]? with
        | some q => decide (q.status = s.statusFilter)
        | none => false)
    else filtered
  updateProgressStats { s with filteredQuestions := filtered }

/-- `selectAnswer(q, a)` (app.js lines 158-162); `i` refers to `q`. -/
def selectAnswer (s : AppState) (i : Nat) (a : Answer) : AppState :=
  match s.questions[i]? with
  | none => s
  | some q =>
    if q.revealed then s
    else
      let q := { q with selected := a.letter }
      recalcStats { s with questions := s.questions.set i q }

/-- `reveal(q)` (app.js lines 177-190); `i` refers to `q`, `created` and `now`
are the clock readings of the `recordAttempt` call. -/
def reveal (s : AppState) (i : Nat) (created now : String) : AppState :=
  match s.questions[i]? with
  | none => s
  | some q =>
    if q.revealed then s
    else
      let q := { q with revealed := true }
      let s := { s with questions := s.questions.set i q }
      let s :=
        match q.question_number with
        | some n =>
          if q.selected.truthy && truthyNumber (some n) then
            let isCorrect := decide (q.selected = q.correct_answer)
            let data := (recordAttempt s.data n isCorrect created now).1
            let q := { q with progress := getQuestionProgress data n }
            { s with questions := s.questions.set i q, data := data }
          else s
        | none => s
      updateProgressStats (recalcStats s)

/-- `resetSession()` (app.js lines 250-256). -/
def resetSession (s : AppState) : AppState :=
  recalcStats
    { s with questions := s.questions.map (fun q => { q with selected := .null, revealed := false }) }

/-- One user action after the questions are loaded. -/
inductive Action where
  | selectAnswer (i : Nat) (a : Answer)
  | reveal (i : Nat) (created now : String)
  | resetSession
  deriving DecidableEq, Repr

/-- The effect of one action. -/
def act (s : AppState) : Action → AppState
  | .selectAnswer i a => selectAnswer s i a
  | .reveal i created now => reveal s i created now
  | .resetSession => resetSession s

/-- `str.replace(/c/g, rep)` for a one-character pattern. -/
def replaceChar (c : Char) (rep : List Char) : List Char → List Char
  | [] => []
  | x :: xs => (if x = c then rep else [x]) ++ replaceChar c rep xs

/-- `escapeHtml(str)` (app.js lines 402-407) on a string argument. -/
def escapeHtml (str : String) : String :=
  String.mk
    (replaceChar '>' ['&', 'g', 't', ';']
      (replaceChar '<' ['&', 'l', 't', ';']
        (replaceChar '&' ['&', 'a', 'm', 'p', ';'] str.data)))

/-- Replaces every occurrence of `pat`, scanning from the left; `fuel` bounds
the number of steps. -/
def replaceAll (pat rep : List Char) : Nat → List Char → List Char
  | 0, cs => cs
  | _ + 1, [] => []
  | fuel + 1, c :: cs =>
    if pat ≠ [] ∧ pat <+: c :: cs then
      rep ++ replaceAll pat rep fuel ((c :: cs).drop pat.length)
    else c :: replaceAll pat rep fuel cs

/-- The decoding named by the specification: `&lt;` to `<`, `&gt;` to `>`, then
`&amp;` to `&`. -/
def unescapeHtml (text : String) : String :=
  let cs := text.data
  let cs := replaceAll ['&', 'l', 't', ';'] ['<'] cs.length cs
  let cs := replaceAll ['&', 'g', 't', ';'] ['>'] cs.length cs
  let cs := replaceAll ['&', 'a', 'm', 'p', ';'] ['&'] cs.length cs
  String.mk cs

/-! ### Auxiliary definitions used in the proofs about `escapeHtml` -/

/-- The text standing for one character when `&` is escaped, `<` is escaped if
`lt` and `>` is escaped if `gt`. -/
def encodeChar (lt gt : Bool) (c : Char) : List Char :=
  if c = '&' then ['&', 'a', 'm', 'p', ';']
  else if c = '<' ∧ lt = true then ['&', 'l', 't', ';']
  else if c = '>' ∧ gt = true then ['&', 'g', 't', ';']
  else [c]

/-- Character-wise encoding of a text. -/
def encodeChars (lt gt : Bool) : List Char → List Char
  | [] => []
  | c :: cs => encodeChar lt gt c ++ encodeChars lt gt cs

/-- The text after an ampersand starts with `amp;`, `lt;` or `gt;`. -/
def entityFollows (post : List Char) : Prop :=
  ['a', 'm', 'p', ';'] <+: post ∨ ['l', 't', ';'] <+: post ∨ ['g', 't', ';'] <+: post

/-- Every ampersand of the text is followed by `amp;`, `lt;` or `gt;`. -/
def AmpersandsOk : List Char → Prop
  | [] => True
  | c :: cs => (c = '&' → entityFollows cs) ∧ AmpersandsOk cs

end App

/-! # Properties -/

/-! ## The JSON model reads back what it writes -/

namespace JSON

theorem skipWhitespace_of_not (c : Char) (cs : List Char) (h : isWhitespace c = false) :
    skipWhitespace (c :: cs) = c :: cs := by
  simp [skipWhitespace, h]

theorem skipWhitespace_append (ws : List Char) (cs : List Char)
    (h : ∀ c ∈ ws, isWhitespace c = true) :
    skipWhitespace (ws ++ cs) = skipWhitespace cs := by
  induction ws with
  | nil => rfl
  | cons w ws ih =>
    have hw : isWhitespace w = true := h w (List.mem_cons_self _ _)
    simp only [List.cons_append, skipWhitespace, hw, if_true]
    exact ih (fun c hc => h c (List.mem_cons_of_mem _ hc))

end JSON

namespace JSON

theorem parseStringBody_succ (fuel : Nat) (c : Char) (rest : List Char) :
    parseStringBody (fuel + 1) (c :: rest) =
      if c = '"' then some ([], rest)
      else
        match readChar (c :: rest) with
        | none => none
        | some (x, rest1) => (parseStringBody fuel rest1).map (fun r => (x :: r.1, r.2)) := by
  rfl

theorem hexValue_digitChar (k : Nat) (hk : k < 16) : hexValue (Nat.digitChar k) = some k := by
  interval_cases k <;> decide

theorem parseHex4_control (n : Nat) (hn : n < 0x20) :
    parseHex4 '0' '0' (Nat.digitChar (n / 16)) (Nat.digitChar (n % 16)) = some (Char.ofNat n) := by
  interval_cases n <;> decide

theorem quoteChar_head_ne_quote (c : Char) : ∃ h t, quoteChar c = h :: t ∧ h ≠ '"' := by
  unfold quoteChar
  by_cases h1 : c = '"'
  · exact ⟨'\\', ['"'], by simp [h1], by decide⟩
  simp only [h1, if_false]
  split_ifs
  · exact ⟨'\\', _, rfl, by decide⟩
  · exact ⟨'\\', _, rfl, by decide⟩
  · exact ⟨'\\', _, rfl, by decide⟩
  · exact ⟨'\\', _, rfl, by decide⟩
  · exact ⟨'\\', _, rfl, by decide⟩
  · exact ⟨'\\', _, rfl, by decide⟩
  · exact ⟨'\\', _, rfl, by decide⟩
  · exact ⟨c, _, rfl, h1⟩

theorem readChar_quoteChar (c : Char) (t : List Char) :
    readChar (quoteChar c ++ t) = some (c, t) := by
  unfold quoteChar
  by_cases h1 : c = '"'
  · subst h1; rfl
  by_cases h2 : c = '\\'
  · subst h2; rfl
  by_cases h3 : c = Char.ofNat 8
  · subst h3; rfl
  by_cases h4 : c = Char.ofNat 12
  · subst h4; rfl
  by_cases h5 : c = '\n'
  · subst h5; rfl
  by_cases h6 : c = '\r'
  · subst h6; rfl
  by_cases h7 : c = '\t'
  · subst h7; rfl
  by_cases h8 : c.toNat < 0x20
  · simp only [h1, h2, h3, h4, h5, h6, h7, h8, if_false, if_true]
    simp [readChar, parseHex4_control c.toNat h8, Char.ofNat_toNat]
  · simp only [h1, h2, h3, h4, h5, h6, h7, h8, if_false]
    simp [readChar, h2, h8]

theorem length_quoteChar_pos (c : Char) : 0 < (quoteChar c).length := by
  obtain ⟨h, t, e, _⟩ := quoteChar_head_ne_quote c
  simp [e]

theorem parseStringBody_quoteBody (s : List Char) : ∀ (fuel : Nat) (rest : List Char),
    (quoteBody s ++ '"' :: rest).length ≤ fuel →
    parseStringBody fuel (quoteBody s ++ '"' :: rest) = some (s, rest) := by
  induction s with
  | nil =>
    intro fuel rest hf
    cases fuel with
    | zero => simp at hf
    | succ f => simp [quoteBody, parseStringBody_succ]
  | cons c cs ih =>
    intro fuel rest hf
    cases fuel with
    | zero => simp at hf
    | succ f =>
      obtain ⟨h, t, e, hne⟩ := quoteChar_head_ne_quote c
      have hlen := length_quoteChar_pos c
      have hread := readChar_quoteChar c (quoteBody cs ++ '"' :: rest)
      simp only [quoteBody, List.append_assoc] at hf ⊢
      rw [e] at hread hf ⊢
      simp only [List.cons_append] at hread hf ⊢
      rw [parseStringBody_succ, if_neg hne, hread]
      simp only
      rw [ih f rest (by simp only [List.length_cons, List.length_append] at hf ⊢; omega)]
      rfl

end JSON

namespace JSON

theorem digitChar_toNat (k : Nat) (hk : k < 10) : (Nat.digitChar k).toNat - 48 = k := by
  interval_cases k <;> decide

theorem digitChar_isDigit (k : Nat) (hk : k < 10) : (Nat.digitChar k).isDigit = true := by
  interval_cases k <;> decide

theorem digitChar_ne_zero (k : Nat) (hk : k < 10) (h0 : 0 < k) : Nat.digitChar k ≠ '0' := by
  interval_cases k <;> decide

theorem toDigitsCore_append (fuel : Nat) : ∀ (n : Nat) (ds : List Char),
    Nat.toDigitsCore 10 fuel n ds = Nat.toDigitsCore 10 fuel n [] ++ ds := by
  induction fuel with
  | zero => intro n ds; simp [Nat.toDigitsCore]
  | succ f ih =>
    intro n ds
    simp only [Nat.toDigitsCore]
    by_cases h : n / 10 = 0
    · simp [h]
    · simp only [h, if_false]
      rw [ih (n / 10) (Nat.digitChar (n % 10) :: ds), ih (n / 10) [Nat.digitChar (n % 10)]]
      simp

theorem decimalValue_snoc (cs : List Char) (c : Char) :
    decimalValue (cs ++ [c]) = 10 * decimalValue cs + (c.toNat - 48) := by
  simp [decimalValue, List.foldl_append]

theorem decimalValue_toDigitsCore (fuel : Nat) : ∀ n : Nat, n < fuel →
    decimalValue (Nat.toDigitsCore 10 fuel n []) = n := by
  induction fuel with
  | zero => intro n hn; omega
  | succ f ih =>
    intro n hn
    simp only [Nat.toDigitsCore]
    by_cases h : n / 10 = 0
    · simp only [h, if_true]
      have hlt : n < 10 := by omega
      simp [decimalValue, digitChar_toNat (n % 10) (Nat.mod_lt _ (by decide))]
      omega
    · simp only [h, if_false]
      rw [toDigitsCore_append, decimalValue_snoc, ih (n / 10) (by omega),
        digitChar_toNat (n % 10) (Nat.mod_lt _ (by decide))]
      omega

theorem decimalValue_toDigits (n : Nat) : decimalValue (Nat.toDigits 10 n) = n :=
  decimalValue_toDigitsCore (n + 1) n (by omega)

theorem toDigitsCore_isDigit (fuel : Nat) : ∀ (n : Nat) (ds : List Char),
    (∀ c ∈ ds, c.isDigit = true) → ∀ c ∈ Nat.toDigitsCore 10 fuel n ds, c.isDigit = true := by
  induction fuel with
  | zero => intro n ds h; simpa [Nat.toDigitsCore] using h
  | succ f ih =>
    intro n ds h
    have hd : ∀ c ∈ Nat.digitChar (n % 10) :: ds, c.isDigit = true := by
      intro c hc
      rcases List.mem_cons.1 hc with h1 | h1
      · rw [h1]; exact digitChar_isDigit _ (Nat.mod_lt _ (by decide))
      · exact h c h1
    simp only [Nat.toDigitsCore]
    by_cases h0 : n / 10 = 0
    · simpa [h0] using hd
    · simpa [h0] using ih (n / 10) _ hd

theorem toDigits_isDigit (n : Nat) : ∀ c ∈ Nat.toDigits 10 n, c.isDigit = true :=
  toDigitsCore_isDigit _ _ _ (by simp)

/-- A positive number is printed without a leading zero. -/
theorem toDigitsCore_head (fuel : Nat) : ∀ n : Nat, n < fuel → 0 < n →
    ∃ d t, Nat.toDigitsCore 10 fuel n [] = Nat.digitChar d :: t ∧ 0 < d ∧ d < 10 := by
  induction fuel with
  | zero => intro n hn; omega
  | succ f ih =>
    intro n hn hpos
    simp only [Nat.toDigitsCore]
    by_cases h : n / 10 = 0
    · simp only [h, if_true]
      exact ⟨n % 10, [], rfl, by omega, Nat.mod_lt _ (by decide)⟩
    · simp only [h, if_false]
      obtain ⟨d, t, e, h1, h2⟩ := ih (n / 10) (by omega) (by omega)
      rw [toDigitsCore_append, e]
      exact ⟨d, t ++ [Nat.digitChar (n % 10)], rfl, h1, h2⟩

theorem toDigits_ne_nil (n : Nat) : Nat.toDigits 10 n ≠ [] := by
  unfold Nat.toDigits
  simp only [Nat.toDigitsCore]
  by_cases h : n / 10 = 0
  · simp [h]
  · simp only [h, if_false]
    rw [toDigitsCore_append]
    simp

theorem toDigits_no_leading_zero (n : Nat) :
    ¬ (1 < (Nat.toDigits 10 n).length ∧ (Nat.toDigits 10 n).head? = some '0') := by
  rintro ⟨hlen, hhead⟩
  by_cases h0 : n = 0
  · subst h0
    simp [Nat.toDigits, Nat.toDigitsCore] at hlen
  · obtain ⟨d, t, e, h1, h2⟩ := toDigitsCore_head (n + 1) n (by omega) (by omega)
    unfold Nat.toDigits at hhead
    rw [e] at hhead
    simp only [List.head?_cons, Option.some.injEq] at hhead
    exact digitChar_ne_zero d h2 h1 hhead

theorem takeWhile_append_of_all {p : Char → Bool} (ds rest : List Char)
    (hds : ∀ c ∈ ds, p c = true) (hrest : ∀ c, rest.head? = some c → p c = false) :
    (ds ++ rest).takeWhile p = ds ∧ (ds ++ rest).dropWhile p = rest := by
  induction ds with
  | nil =>
    cases rest with
    | nil => simp
    | cons r rs =>
      have := hrest r rfl
      simp [List.takeWhile, List.dropWhile, this]
  | cons d ds ih =>
    have hd := hds d (List.mem_cons_self _ _)
    obtain ⟨i1, i2⟩ := ih (fun c hc => hds c (List.mem_cons_of_mem _ hc))
    simp [List.takeWhile, List.dropWhile, hd, i1, i2]

/-- A natural number printed in decimal and followed by something that is not
part of a numeral is read back as that number. -/
theorem parseNumber_toDigits (n : Nat) (rest : List Char)
    (hrest : ∀ c, rest.head? = some c →
      c.isDigit = false ∧ c ≠ '.' ∧ c ≠ 'e' ∧ c ≠ 'E') :
    parseNumber (Nat.toDigits 10 n ++ rest) = some ((n : Int), rest) := by
  have hne := toDigits_ne_nil n
  have hdig := toDigits_isDigit n
  obtain ⟨c0, t0, e0⟩ := List.exists_cons_of_ne_nil hne
  have hc0 : c0.isDigit = true := hdig c0 (by rw [e0]; exact List.mem_cons_self _ _)
  have hminus : (Nat.toDigits 10 n ++ rest).head? ≠ some '-' := by
    rw [e0]
    simp only [List.cons_append, List.head?_cons, ne_eq, Option.some.injEq]
    intro h
    rw [h] at hc0
    exact absurd hc0 (by decide)
  obtain ⟨ht, hd⟩ := takeWhile_append_of_all (Nat.toDigits 10 n) rest hdig
    (fun c hc => (hrest c hc).1)
  have hlead := toDigits_no_leading_zero n
  have hdot : ¬ (rest.head? = some '.' ∨ rest.head? = some 'e' ∨ rest.head? = some 'E') := by
    rintro (h | h | h)
    · exact (hrest _ h).2.1 rfl
    · exact (hrest _ h).2.2.1 rfl
    · exact (hrest _ h).2.2.2 rfl
  unfold parseNumber
  simp only [hminus, decide_False, Bool.false_eq_true, if_false, ht, hd, hne, hlead, hdot,
    decimalValue_toDigits]

end JSON

namespace JSON

theorem parseValue_succ (fuel : Nat) (c : Char) (rest : List Char) :
    parseValue (fuel + 1) (c :: rest) =
      if c = '{' then
        match skipWhitespace rest with
        | [] => none
        | c1 :: rest1 =>
          if c1 = '}' then some (.object [], rest1)
          else parseMembers fuel (c1 :: rest1) []
      else if c = '[' then
        match skipWhitespace rest with
        | [] => none
        | c1 :: rest1 =>
          if c1 = ']' then some (.array [], rest1)
          else parseItems fuel (c1 :: rest1) []
      else if c = '"' then
        (parseStringBody fuel rest).map (fun r => (.string (String.mk r.1), r.2))
      else if c = 't' then
        if rest.take 3 = ['r', 'u', 'e'] then some (.bool true, rest.drop 3) else none
      else if c = 'f' then
        if rest.take 4 = ['a', 'l', 's', 'e'] then some (.bool false, rest.drop 4) else none
      else if c = 'n' then
        if rest.take 3 = ['u', 'l', 'l'] then some (.null, rest.drop 3) else none
      else
        (parseNumber (c :: rest)).map (fun r => (.number r.1, r.2)) := by
  rw [parseValue]

theorem parseMembers_succ (fuel : Nat) (c : Char) (rest : List Char)
    (acc : List (String × Value)) :
    parseMembers (fuel + 1) (c :: rest) acc =
      if c = '"' then
        match parseStringBody fuel rest with
        | none => none
        | some (k, rest1) =>
          match skipWhitespace rest1 with
          | [] => none
          | c2 :: rest2 =>
            if c2 = ':' then
              match parseValue fuel (skipWhitespace rest2) with
              | none => none
              | some (v, rest3) =>
                match skipWhitespace rest3 with
                | [] => none
                | c4 :: rest4 =>
                  if c4 = ',' then
                    parseMembers fuel (skipWhitespace rest4) (setMember acc (String.mk k) v)
                  else if c4 = '}' then
                    some (.object (setMember acc (String.mk k) v), rest4)
                  else none
            else none
      else none := by
  rw [parseMembers]

theorem renderMembers_single (ind : List Char) (k : String) (v : Value) :
    renderMembers ind [(k, v)] = quote k ++ ':' :: ' ' :: render ind v := by
  simp [renderMembers]

theorem renderMembers_cons_cons (ind : List Char) (k : String) (v : Value)
    (m : String × Value) (ms : List (String × Value)) :
    renderMembers ind ((k, v) :: m :: ms)
      = quote k ++ ':' :: ' ' :: render ind v ++ ',' :: '\n' :: ind
          ++ renderMembers ind (m :: ms) := by
  rw [renderMembers]
  simp

theorem render_object_cons (ind : List Char) (m : String × Value) (ms : List (String × Value)) :
    render ind (.object (m :: ms))
      = '{' :: '\n' :: ' ' :: ' ' :: ind
          ++ (renderMembers (' ' :: ' ' :: ind) (m :: ms) ++ '\n' :: ind ++ ['}']) := by
  rw [render]

end JSON

namespace JSON

theorem parseMembers_step (ind : List Char) (k : String) (v : Value) (tail : List Char)
    (acc : List (String × Value)) (fuel : Nat) (hv : ParsesBack ind v)
    (hlen : ('"' :: (quoteBody k.data ++ '"' :: ':' :: ' ' :: (render ind v ++ tail))).length
      < fuel + 1)
    (htail : ∀ c, tail.head? = some c → c = ',' ∨ c = '\n') :
    parseMembers (fuel + 1)
        ('"' :: (quoteBody k.data ++ '"' :: ':' :: ' ' :: (render ind v ++ tail))) acc =
      match skipWhitespace tail with
      | [] => none
      | c4 :: rest4 =>
        if c4 = ',' then parseMembers fuel (skipWhitespace rest4) (setMember acc k v)
        else if c4 = '}' then some (.object (setMember acc k v), rest4)
        else none := by
  obtain ⟨⟨c0, t0, e0, hc0⟩, hparse⟩ := hv
  simp only [List.length_cons, List.length_append] at hlen
  rw [parseMembers_succ, if_pos rfl,
    parseStringBody_quoteBody k.data fuel _
      (by simp only [List.length_cons, List.length_append]; omega)]
  simp only
  rw [skipWhitespace_of_not ':' _ (by decide)]
  simp only [if_true]
  have hws : skipWhitespace (' ' :: (render ind v ++ tail)) = render ind v ++ tail := by
    rw [skipWhitespace, if_pos (by decide), e0, List.cons_append,
      skipWhitespace_of_not c0 _ hc0]
  rw [hws, hparse fuel tail (by simp only [List.length_append]; omega) htail]

theorem renderMembers_head (ind : List Char) (m : String × Value)
    (ms : List (String × Value)) :
    ∃ t, renderMembers ind (m :: ms) = '"' :: t := by
  obtain ⟨k, v⟩ := m
  cases ms with
  | nil => exact ⟨_, by rw [renderMembers_single]; rfl⟩
  | cons m' ms' => exact ⟨_, by rw [renderMembers_cons_cons]; rfl⟩

/-- The members of an object, printed at indentation `ind` and closed at
indentation `ind0`, are read back in order. -/
theorem parseMembers_renderMembers (ind ind0 : List Char)
    (hind : ∀ c ∈ ind, isWhitespace c = true) (hind0 : ∀ c ∈ ind0, isWhitespace c = true) :
    ∀ (ms : List (String × Value)) (m : String × Value),
      (∀ x ∈ m :: ms, ParsesBack ind x.2) →
      ∀ (acc : List (String × Value)) (fuel : Nat) (rest : List Char),
        (renderMembers ind (m :: ms) ++ '\n' :: (ind0 ++ '}' :: rest)).length < fuel →
        parseMembers fuel (renderMembers ind (m :: ms) ++ '\n' :: (ind0 ++ '}' :: rest)) acc
          = some (.object ((m :: ms).foldl (fun a x => setMember a x.1 x.2) acc), rest) := by
  intro ms
  induction ms with
  | nil =>
    intro m hm acc fuel rest hlen
    obtain ⟨k, v⟩ := m
    cases fuel with
    | zero => omega
    | succ f =>
      have hv : ParsesBack ind v := hm (k, v) (List.mem_cons_self _ _)
      rw [renderMembers_single] at hlen ⊢
      simp only [quote, List.cons_append, List.append_assoc, List.nil_append] at hlen ⊢
      rw [parseMembers_step ind k v _ acc f hv hlen (by simp)]
      have hws : skipWhitespace ('\n' :: (ind0 ++ '}' :: rest)) = '}' :: rest := by
        rw [skipWhitespace, if_pos (by decide), skipWhitespace_append _ _ hind0,
          skipWhitespace_of_not '}' _ (by decide)]
      rw [hws]
      simp
  | cons m' ms' ih =>
    intro m hm acc fuel rest hlen
    obtain ⟨k, v⟩ := m
    cases fuel with
    | zero => omega
    | succ f =>
      have hv : ParsesBack ind v := hm (k, v) (List.mem_cons_self _ _)
      rw [renderMembers_cons_cons] at hlen ⊢
      simp only [quote, List.cons_append, List.append_assoc, List.nil_append] at hlen ⊢
      rw [parseMembers_step ind k v _ acc f hv hlen (by simp)]
      rw [skipWhitespace_of_not ',' _ (by decide)]
      simp only [if_true]
      obtain ⟨t, ht⟩ := renderMembers_head ind m' ms'
      have hws : skipWhitespace
          ('\n' :: (ind ++ (renderMembers ind (m' :: ms') ++ '\n' :: (ind0 ++ '}' :: rest))))
          = renderMembers ind (m' :: ms') ++ '\n' :: (ind0 ++ '}' :: rest) := by
        rw [skipWhitespace, if_pos (by decide), skipWhitespace_append _ _ hind, ht,
          List.cons_append, skipWhitespace_of_not '"' _ (by decide)]
      rw [hws]
      rw [ih m' (fun x hx => hm x (List.mem_cons_of_mem _ hx)) _ f rest
        (by simp only [List.length_cons, List.length_append] at hlen ⊢; omega)]
      rfl

end JSON

namespace JSON

theorem setMember_of_not_mem (acc : List (String × Value)) (k : String) (v : Value)
    (h : k ∉ acc.map Prod.fst) : setMember acc k v = acc ++ [(k, v)] := by
  induction acc with
  | nil => rfl
  | cons a acc ih =>
    obtain ⟨k', v'⟩ := a
    simp only [List.map_cons, List.mem_cons, not_or] at h
    simp only [setMember, if_neg (Ne.symm h.1), ih h.2, List.cons_append]

theorem foldl_setMember (ms : List (String × Value)) : ∀ acc : List (String × Value),
    ((acc ++ ms).map Prod.fst).Nodup →
    ms.foldl (fun a x => setMember a x.1 x.2) acc = acc ++ ms := by
  induction ms with
  | nil => intro acc _; simp
  | cons m ms ih =>
    intro acc hnd
    obtain ⟨k, v⟩ := m
    have hk : k ∉ acc.map Prod.fst := by
      simp only [List.map_append, List.map_cons] at hnd
      have := (List.nodup_append.1 hnd).2.2
      intro hmem
      exact this hmem (List.mem_cons_self _ _) 
    simp only [List.foldl_cons, setMember_of_not_mem acc k v hk]
    rw [ih (acc ++ [(k, v)]) (by simpa using hnd)]
    simp

theorem parsesBack_null (ind : List Char) : ParsesBack ind .null := by
  refine ⟨⟨'n', _, by rw [render], by decide⟩, fun fuel rest hlen _ => ?_⟩
  cases fuel with
  | zero => omega
  | succ f =>
    rw [render]
    simp [parseValue_succ]

theorem parsesBack_bool (ind : List Char) (b : Bool) : ParsesBack ind (.bool b) := by
  cases b with
  | true =>
    refine ⟨⟨'t', _, by rw [render]; rfl, by decide⟩, fun fuel rest hlen _ => ?_⟩
    cases fuel with
    | zero => omega
    | succ f =>
      rw [render]
      simp [parseValue_succ]
  | false =>
    refine ⟨⟨'f', _, by rw [render]; rfl, by decide⟩, fun fuel rest hlen _ => ?_⟩
    cases fuel with
    | zero => omega
    | succ f =>
      rw [render]
      simp [parseValue_succ]

theorem parsesBack_string (ind : List Char) (s : String) : ParsesBack ind (.string s) := by
  refine ⟨⟨'"', _, by rw [render]; rfl, by decide⟩, fun fuel rest hlen _ => ?_⟩
  cases fuel with
  | zero => omega
  | succ f =>
    rw [render] at hlen ⊢
    simp only [quote, List.cons_append, List.append_assoc, List.nil_append,
      List.length_cons] at hlen ⊢
    rw [parseValue_succ]
    simp only [Char.reduceEq, if_false, if_true]
    rw [parseStringBody_quoteBody s.data f rest (by omega)]
    rfl

theorem isDigit_not_token (c : Char) (h : c.isDigit = true) :
    isWhitespace c = false ∧ c ≠ '{' ∧ c ≠ '[' ∧ c ≠ '"' ∧ c ≠ 't' ∧ c ≠ 'f' ∧ c ≠ 'n' := by
  refine ⟨?_, ?_, ?_, ?_, ?_, ?_, ?_⟩
  · cases hw : isWhitespace c with
    | false => rfl
    | true =>
      simp only [isWhitespace, Bool.or_eq_true, decide_eq_true_eq] at hw
      rcases hw with ((h1 | h1) | h1) | h1 <;> (rw [h1] at h; exact absurd h (by decide))
  all_goals (intro h1; rw [h1] at h; exact absurd h (by decide))

theorem parsesBack_nat (ind : List Char) (n : Nat) : ParsesBack ind (.number (n : Int)) := by
  have hrender : render ind (.number (n : Int)) = Nat.toDigits 10 n := by
    rw [render]; rfl
  obtain ⟨c0, t0, e0⟩ := List.exists_cons_of_ne_nil (toDigits_ne_nil n)
  have hc0 : c0.isDigit = true := toDigits_isDigit n c0 (by rw [e0]; exact List.mem_cons_self _ _)
  obtain ⟨hws, h1, h2, h3, h4, h5, h6⟩ := isDigit_not_token c0 hc0
  refine ⟨⟨c0, t0, by rw [hrender, e0], hws⟩, fun fuel rest hlen hrest => ?_⟩
  cases fuel with
  | zero => omega
  | succ f =>
    have hnum := parseNumber_toDigits n rest (fun c hc => by
      rcases hrest c hc with h | h <;> (subst h; exact ⟨by decide, by decide, by decide, by decide⟩))
    rw [hrender, e0] at *
    rw [List.cons_append, parseValue_succ]
    simp only [h1, h2, h3, h4, h5, h6, if_false]
    rw [← List.cons_append, hnum]
    rfl

theorem parsesBack_object (ind : List Char) (hind : ∀ c ∈ ind, isWhitespace c = true)
    (ms : List (String × Value))
    (hms : ∀ x ∈ ms, ParsesBack (' ' :: ' ' :: ind) x.2)
    (hnd : (ms.map Prod.fst).Nodup) : ParsesBack ind (.object ms) := by
  cases ms with
  | nil =>
    refine ⟨⟨'{', _, by rw [render], by decide⟩, fun fuel rest hlen _ => ?_⟩
    cases fuel with
    | zero => omega
    | succ f =>
      rw [render]
      simp [parseValue_succ, skipWhitespace_of_not '}' rest (by decide)]
  | cons m ms =>
    refine ⟨⟨'{', _, by rw [render_object_cons]; rfl, by decide⟩, fun fuel rest hlen _ => ?_⟩
    cases fuel with
    | zero => omega
    | succ f =>
      have hind' : ∀ c ∈ ' ' :: ' ' :: ind, isWhitespace c = true := by
        intro c hc
        simp only [List.mem_cons] at hc
        rcases hc with h | h | h
        · subst h; decide
        · subst h; decide
        · exact hind c h
      obtain ⟨t, ht⟩ := renderMembers_head (' ' :: ' ' :: ind) m ms
      rw [render_object_cons] at hlen ⊢
      simp only [List.cons_append, List.append_assoc, List.nil_append,
        List.length_cons] at hlen ⊢
      rw [parseValue_succ, if_pos rfl]
      have hws : skipWhitespace ('\n' :: ' ' :: ' ' ::
            (ind ++ (renderMembers (' ' :: ' ' :: ind) (m :: ms) ++ '\n' :: (ind ++ '}' :: rest))))
          = '"' :: (t ++ '\n' :: (ind ++ '}' :: rest)) := by
        rw [skipWhitespace, if_pos (by decide), skipWhitespace, if_pos (by decide),
          skipWhitespace, if_pos (by decide), skipWhitespace_append _ _ hind, ht,
          List.cons_append, skipWhitespace_of_not '"' _ (by decide)]
      rw [hws]
      simp only [Char.reduceEq, if_false]
      rw [← List.cons_append, ← ht,
        parseMembers_renderMembers (' ' :: ' ' :: ind) ind hind' hind ms m hms [] f rest
          (by simp only [List.length_cons, List.length_append] at hlen ⊢; omega),
        foldl_setMember (m :: ms) [] (by simpa using hnd)]
      rfl

/-- What `stringify` writes for a value that parses back is read by `parse`. -/
theorem parse_stringify (v : Value) (hv : ParsesBack [] v) : parse (stringify v) = some v := by
  obtain ⟨⟨c0, t0, e0, hc0⟩, hparse⟩ := hv
  have h := hparse (2 * (render [] v).length + 2) [] (by simp; omega) (by simp)
  simp only [List.append_nil] at h
  unfold parse stringify
  simp only
  rw [e0, skipWhitespace_of_not c0 t0 hc0, ← e0, h]
  simp [skipWhitespace]

end JSON

/-! ## Property names: `key` is injective on question numbers -/

namespace ProgressTracker

theorem digitChar_ne_minus (k : Nat) (hk : k < 10) : Nat.digitChar k ≠ '-' := by
  interval_cases k <;> decide

theorem toDigitsCore_no_minus (fuel : Nat) : ∀ (n : Nat) (ds : List Char),
    '-' ∉ ds → '-' ∉ Nat.toDigitsCore 10 fuel n ds := by
  induction fuel with
  | zero => intro n ds h; simpa [Nat.toDigitsCore] using h
  | succ f ih =>
    intro n ds h
    have hd : '-' ∉ Nat.digitChar (n % 10) :: ds := by
      intro hm
      rcases List.mem_cons.1 hm with h1 | h1
      · exact digitChar_ne_minus (n % 10) (Nat.mod_lt _ (by decide)) h1.symm
      · exact h h1
    simp only [Nat.toDigitsCore]
    by_cases h0 : n / 10 = 0
    · simpa [h0] using hd
    · simpa [h0] using ih (n / 10) _ hd

theorem decimalInt_toString (i : Int) : decimalInt (toString i).data = i := by
  cases i with
  | ofNat m =>
    have hno : '-' ∉ Nat.toDigits 10 m := toDigitsCore_no_minus _ _ _ (by simp)
    show decimalInt (Nat.repr m).data = _
    simp only [Nat.repr, List.asString, decimalInt, hno, if_false]
    simp [Nat.toDigits, JSON.decimalValue_toDigitsCore (m + 1) m (by omega)]
  | negSucc m =>
    have hno : '-' ∉ Nat.toDigits 10 (m + 1) := toDigitsCore_no_minus _ _ _ (by simp)
    show decimalInt ("-" ++ Nat.repr (m + 1)).data = _
    have hf : List.filter (fun c => decide (c ≠ '-')) (Nat.toDigits 10 (m + 1))
        = Nat.toDigits 10 (m + 1) := by
      apply List.filter_eq_self.2
      intro c hc
      simp only [ne_eq, decide_not, Bool.not_eq_true', decide_eq_false_iff_not]
      intro hcm
      exact hno (hcm ▸ hc)
    simp only [Nat.repr, List.asString, String.data_append, decimalInt]
    simp only [List.singleton_append, List.mem_cons, true_or, if_true]
    rw [List.filter_cons_of_neg (by simp), hf]
    simp [Nat.toDigits, JSON.decimalValue_toDigitsCore (m + 1 + 1) (m + 1) (by omega),
      Int.negSucc_eq]

theorem key_injective : Function.Injective key := by
  intro a b h
  have h1 : (key a).data = (key b).data := by rw [h]
  simp only [key, String.data_append, List.append_cancel_left_eq] at h1
  have h2 := congrArg decimalInt h1
  simpa [decimalInt_toString] using h2

end ProgressTracker

/-! ## The property list `this.data` -/

namespace ProgressTracker

theorem get_set_self (d : Store) (k : String) (p : Progress) : get (set d k p) k = some p := by
  induction d with
  | nil => simp [set, get]
  | cons e rest ih =>
    obtain ⟨k', p'⟩ := e
    by_cases h : k' = k
    · simp [set, get, h]
    · simp [set, get, h, ih]

theorem get_set_other (d : Store) (k k' : String) (p : Progress) (h : k' ≠ k) :
    get (set d k p) k' = get d k' := by
  induction d with
  | nil => simp [set, get, h.symm]
  | cons e rest ih =>
    obtain ⟨k0, p0⟩ := e
    by_cases h0 : k0 = k
    · subst h0
      simp [set, get, h.symm]
    · by_cases h1 : k0 = k'
      · subst h1
        simp [set, get, h0]
      · simp [set, get, h0, h1, ih]

theorem set_set (d : Store) (k : String) (p p' : Progress) :
    set (set d k p) k p' = set d k p' := by
  induction d with
  | nil => simp [set]
  | cons e rest ih =>
    obtain ⟨k0, p0⟩ := e
    by_cases h0 : k0 = k
    · simp [set, h0]
    · simp [set, h0, ih]

theorem mem_set (d : Store) (k : String) (p : Progress) (e : String × Progress)
    (he : e ∈ set d k p) : e ∈ d ∨ e = (k, p) := by
  induction d with
  | nil => simpa [set] using he
  | cons e0 rest ih =>
    obtain ⟨k0, p0⟩ := e0
    by_cases h0 : k0 = k
    · subst h0
      simp only [set, if_true, List.mem_cons] at he
      rcases he with h | h
      · exact Or.inr h
      · exact Or.inl (List.mem_cons_of_mem _ h)
    · simp only [set, h0, if_false, List.mem_cons] at he
      rcases he with h | h
      · exact Or.inl (h ▸ List.mem_cons_self _ _)
      · rcases ih h with h' | h'
        · exact Or.inl (List.mem_cons_of_mem _ h')
        · exact Or.inr h'

theorem get_delete_self (d : Store) (k : String) : get (delete d k) k = none := by
  induction d with
  | nil => simp [delete, get]
  | cons e rest ih =>
    obtain ⟨k0, p0⟩ := e
    by_cases h0 : k0 = k
    · simpa [delete, h0] using ih
    · simpa [delete, h0, get] using ih

theorem get_delete_other (d : Store) (k k' : String) (h : k' ≠ k) :
    get (delete d k) k' = get d k' := by
  induction d with
  | nil => simp [delete, get]
  | cons e rest ih =>
    obtain ⟨k0, p0⟩ := e
    by_cases h0 : k0 = k
    · subst h0
      simpa [delete, get, h.symm] using ih
    · by_cases h1 : k0 = k'
      · subst h1
        simp [delete, get, h0]
      · simpa [delete, get, h0, h1] using ih

/-- The record `recordAttempt` starts from: the stored one, or the fresh
literal when the property is absent. -/
theorem recordAttempt_eq (d : Store) (q : Int) (c : Bool) (created now : String) :
    recordAttempt d q c created now =
      (set d (key q) (applyAttempt ((get d (key q)).getD (freshProgress created)) c now),
       applyAttempt ((get d (key q)).getD (freshProgress created)) c now) := by
  unfold recordAttempt
  cases h : get d (key q) with
  | none => simp only [h, Option.isNone_none, if_true, get_set_self, set_set, Option.getD_none]
  | some p => simp [h]

theorem get_recordAttempt_self (d : Store) (q : Int) (c : Bool) (created now : String) :
    getQuestionProgress (recordAttempt d q c created now).1 q
      = some (applyAttempt ((get d (key q)).getD (freshProgress created)) c now) := by
  simp [recordAttempt_eq, getQuestionProgress, get_set_self]

theorem get_recordAttempt_other (d : Store) (q q' : Int) (c : Bool) (created now : String)
    (h : q' ≠ q) :
    getQuestionProgress (recordAttempt d q c created now).1 q' = getQuestionProgress d q' := by
  have hk : key q' ≠ key q := fun hk => h (key_injective hk)
  simp [recordAttempt_eq, getQuestionProgress, get_set_other _ _ _ _ hk]

end ProgressTracker

/-! ## Counters and the mastery flag -/

namespace ProgressTracker

theorem applyAttempt_attempts (p : Progress) (c : Bool) (now : String) :
    (applyAttempt p c now).attempts = p.attempts + 1 := by
  unfold applyAttempt
  cases c with
  | false => simp
  | true =>
    simp only [if_true]
    split <;> rfl

theorem applyAttempt_correct (p : Progress) (c : Bool) (now : String) :
    (applyAttempt p c now).correct = p.correct + (if c then 1 else 0) := by
  unfold applyAttempt
  cases c with
  | false => simp
  | true =>
    simp only [if_true]
    split <;> rfl

theorem applyAttempt_incorrect (p : Progress) (c : Bool) (now : String) :
    (applyAttempt p c now).incorrect = p.incorrect + (if c then 0 else 1) := by
  unfold applyAttempt
  cases c with
  | false => simp
  | true =>
    simp only [if_true]
    split <;> rfl

theorem applyAttempt_mastered_false (p : Progress) (now : String) :
    (applyAttempt p false now).mastered = false := by
  simp [applyAttempt]

theorem applyAttempt_mastered_true (p : Progress) (now : String) :
    (applyAttempt p true now).mastered
      = (decide (MASTERY_THRESHOLD ≤ p.correct + 1) || p.mastered) := by
  unfold applyAttempt
  by_cases h : MASTERY_THRESHOLD ≤ p.correct + 1
  · simp [h]
  · simp [h]

/-- The record invariant `attempts = correct + incorrect`. -/
theorem applyAttempt_balanced (p : Progress) (c : Bool) (now : String)
    (h : p.attempts = p.correct + p.incorrect) :
    (applyAttempt p c now).attempts
      = (applyAttempt p c now).correct + (applyAttempt p c now).incorrect := by
  rw [applyAttempt_attempts, applyAttempt_correct, applyAttempt_incorrect]
  cases c <;> simp <;> omega

theorem step_balanced (d : Store) (op : Op)
    (h : ∀ e ∈ d, e.2.attempts = e.2.correct + e.2.incorrect) :
    ∀ e ∈ step d op, e.2.attempts = e.2.correct + e.2.incorrect := by
  intro e he
  cases op with
  | recordAttempt q c created now =>
    simp only [step, recordAttempt_eq] at he
    rcases mem_set _ _ _ _ he with h1 | h1
    · exact h e h1
    · subst h1
      apply applyAttempt_balanced
      cases hg : get d (key q) with
      | none => simp [freshProgress]
      | some p0 =>
        have hm : (key q, p0) ∈ d := by
          clear h he
          induction d with
          | nil => simp [get] at hg
          | cons e0 rest ih =>
            obtain ⟨k0, q0⟩ := e0
            by_cases h0 : k0 = key q
            · simp only [get, h0, if_true, Option.some.injEq] at hg
              simp [h0, hg]
            · simp only [get, h0, if_false] at hg
              exact List.mem_cons_of_mem _ (ih hg)
        simpa using h _ hm
  | resetQuestion q =>
    simp only [step, resetQuestion, delete] at he
    exact h e (List.mem_filter.1 he).1
  | resetAll =>
    simp [step, resetAll] at he

theorem run_balanced (ops : List Op) : ∀ d : Store,
    (∀ e ∈ d, e.2.attempts = e.2.correct + e.2.incorrect) →
    ∀ e ∈ run d ops, e.2.attempts = e.2.correct + e.2.incorrect := by
  induction ops with
  | nil => intro d h; simpa [run] using h
  | cons op rest ih =>
    intro d h
    simpa [run] using ih (step d op) (step_balanced d op h)

end ProgressTracker

namespace ProgressTracker

/-- C1: starting from the empty store, after every finite sequence of
`recordAttempt`, `resetQuestion` and `resetAll` calls, every record in the
store satisfies `attempts = correct + incorrect`. -/
theorem balanced_of_reachable (ops : List Op) (k : String) (p : Progress)
    (h : (k, p) ∈ run empty ops) : p.attempts = p.correct + p.incorrect :=
  run_balanced ops empty (by simp [empty]) (k, p) h

theorem balanced_of_reachable_witness :
    (("q_7", { attempts := 2, correct := 1, incorrect := 1, lastAttempt := some "t4",
               mastered := false, firstAttempt := some "t1" }) : String × Progress)
      ∈ run empty [.recordAttempt 7 true "t1" "t2", .recordAttempt 3 true "a" "b",
                   .resetQuestion 3, .recordAttempt 7 false "t3" "t4"]
    ∧ (2 : Nat) = 1 + 1 :=
  ⟨by decide,
   balanced_of_reachable
     [.recordAttempt 7 true "t1" "t2", .recordAttempt 3 true "a" "b",
      .resetQuestion 3, .recordAttempt 7 false "t3" "t4"]
     "q_7" { attempts := 2, correct := 1, incorrect := 1, lastAttempt := some "t4",
             mastered := false, firstAttempt := some "t1" } (by decide)⟩

end ProgressTracker

namespace ProgressTracker

theorem run_cons (d : Store) (op : Op) (ops : List Op) :
    run d (op :: ops) = run (step d op) ops := rfl

/-- Counters of question `id` after a sequence of `recordAttempt` calls, relative
to the counters it had before (zero when it had no record). -/
theorem run_calls_counters (id : Int) (calls : List Call) : ∀ d : Store,
    (1 ≤ (callsOn id calls).length ∨ (getQuestionProgress d id).isSome →
      (getQuestionProgress (run d (calls.map Call.toOp)) id).isSome) ∧
    ∀ p, getQuestionProgress (run d (calls.map Call.toOp)) id = some p →
      p.attempts = ((getQuestionProgress d id).map (·.attempts)).getD 0
          + (callsOn id calls).length ∧
      p.correct = ((getQuestionProgress d id).map (·.correct)).getD 0
          + ((callsOn id calls).filter (fun c => c.isCorrect)).length ∧
      p.incorrect = ((getQuestionProgress d id).map (·.incorrect)).getD 0
          + ((callsOn id calls).filter (fun c => !c.isCorrect)).length := by
  induction calls with
  | nil =>
    intro d
    refine ⟨fun h => ?_, fun p hp => ?_⟩
    · rcases h with h | h
      · simp [callsOn] at h
      · simpa [run] using h
    · have hp' : getQuestionProgress d id = some p := by simpa [run] using hp
      simp [hp', callsOn]
  | cons c rest ih =>
    intro d
    obtain ⟨ih1, ih2⟩ := ih (step d c.toOp)
    simp only [List.map_cons, run_cons]
    by_cases hc : c.questionNumber = id
    · have hget : getQuestionProgress (step d c.toOp) id
          = some (applyAttempt ((get d (key id)).getD (freshProgress c.created))
              c.isCorrect c.now) := by
        simp only [step, Call.toOp, hc]
        exact get_recordAttempt_self d id c.isCorrect c.created c.now
      refine ⟨fun _ => ih1 (Or.inr (by simp [hget])), fun p hp => ?_⟩
      have h3 := ih2 p hp
      rw [hget] at h3
      simp only [Option.map_some', Option.getD_some, applyAttempt_attempts,
        applyAttempt_correct, applyAttempt_incorrect] at h3
      have hcons : callsOn id (c :: rest) = c :: callsOn id rest := by
        simp [callsOn, hc]
      rw [hcons]
      obtain ⟨ha, hb, hi⟩ := h3
      cases hg : get d (key id) with
      | none =>
        simp only [hg, Option.getD_none, freshProgress] at ha hb hi
        simp only [getQuestionProgress, hg, Option.map_none', Option.getD_none]
        cases hcc : c.isCorrect <;> simp [hcc] at ha hb hi ⊢ <;> omega
      | some p0 =>
        simp only [hg, Option.getD_some] at ha hb hi
        simp only [getQuestionProgress, hg, Option.map_some', Option.getD_some]
        cases hcc : c.isCorrect <;> simp [hcc] at ha hb hi ⊢ <;> omega
    · have hget : getQuestionProgress (step d c.toOp) id = getQuestionProgress d id := by
        simp only [step, Call.toOp]
        exact get_recordAttempt_other d c.questionNumber id c.isCorrect c.created c.now
          (fun h => hc h.symm)
      have hcons : callsOn id (c :: rest) = callsOn id rest := by
        simp [callsOn, hc]
      rw [hcons, ← hget]
      exact ⟨ih1, ih2⟩

/-- C2: for a question `id` without a record, after a sequence of `recordAttempt`
calls of which `N ≥ 1` are on `id` (the others on other ids), the record of
`id` has `attempts = N`, `correct` = the number of those calls with
`isCorrect` true and `incorrect` = the number with `isCorrect` false. -/
theorem recordAttempt_counts (d : Store) (id : Int) (calls : List Call)
    (hnew : getQuestionProgress d id = none)
    (hN : 1 ≤ (callsOn id calls).length) :
    ∃ p, getQuestionProgress (run d (calls.map Call.toOp)) id = some p ∧
      p.attempts = (callsOn id calls).length ∧
      p.correct = ((callsOn id calls).filter (fun c => c.isCorrect)).length ∧
      p.incorrect = ((callsOn id calls).filter (fun c => !c.isCorrect)).length := by
  obtain ⟨h1, h2⟩ := run_calls_counters id calls d
  obtain ⟨p, hp⟩ := Option.isSome_iff_exists.1 (h1 (Or.inl hN))
  refine ⟨p, hp, ?_⟩
  simpa [hnew] using h2 p hp

theorem recordAttempt_counts_witness :
    ∃ p, getQuestionProgress
        (run [("q_9", freshProgress "t0")]
          ([⟨5, true, "a", "b"⟩, ⟨9, false, "c", "d"⟩, ⟨5, false, "e", "f"⟩,
            ⟨5, true, "g", "h"⟩].map Call.toOp)) 5 = some p ∧
      p.attempts = 3 ∧ p.correct = 2 ∧ p.incorrect = 1 :=
  recordAttempt_counts [("q_9", freshProgress "t0")] 5
    [⟨5, true, "a", "b"⟩, ⟨9, false, "c", "d"⟩, ⟨5, false, "e", "f"⟩, ⟨5, true, "g", "h"⟩]
    (by decide) (by decide)

end ProgressTracker

namespace ProgressTracker

theorem getQuestionStatus_recordAttempt (d : Store) (id : Int) (c : Bool)
    (created now : String) :
    getQuestionStatus (recordAttempt d id c created now).1 id
      = if (recordAttempt d id c created now).2.mastered then "mastered" else "attempted" := by
  rw [getQuestionStatus, get_recordAttempt_self]
  simp only [recordAttempt_eq]

/-- C3: with `MASTERY_THRESHOLD = 2`, two `recordAttempt(id, true)` calls on a
question without a record make its status `'mastered'`; and from every store,
`recordAttempt(id, false)` leaves the record with `mastered = false` and the
status `'attempted'`. -/
theorem mastered_after_threshold (id : Int) :
    MASTERY_THRESHOLD = 2 ∧
    (∀ (d : Store) (c1 n1 c2 n2 : String), getQuestionProgress d id = none →
      getQuestionStatus
        (run d [.recordAttempt id true c1 n1, .recordAttempt id true c2 n2]) id
        = "mastered") ∧
    (∀ (d : Store) (created now : String),
      (recordAttempt d id false created now).2.mastered = false ∧
      (∃ p, getQuestionProgress (recordAttempt d id false created now).1 id = some p ∧
        p = (recordAttempt d id false created now).2 ∧ p.mastered = false) ∧
      getQuestionStatus (recordAttempt d id false created now).1 id = "attempted") := by
  refine ⟨rfl, ?_, ?_⟩
  · intro d c1 n1 c2 n2 hnew
    have hnew' : get d (key id) = none := hnew
    simp only [run, List.foldl, step]
    rw [getQuestionStatus_recordAttempt]
    have h1 : get (recordAttempt d id true c1 n1).1 (key id)
        = some (applyAttempt (freshProgress c1) true n1) := by
      have := get_recordAttempt_self d id true c1 n1
      simpa [getQuestionProgress, hnew'] using this
    simp [recordAttempt_eq (recordAttempt d id true c1 n1).1, h1,
      applyAttempt_mastered_true, applyAttempt_correct, freshProgress, MASTERY_THRESHOLD]
  · intro d created now
    have hm : (recordAttempt d id false created now).2.mastered = false := by
      simp [recordAttempt_eq, applyAttempt_mastered_false]
    refine ⟨hm, ⟨_, get_recordAttempt_self d id false created now, ?_, ?_⟩, ?_⟩
    · simp [recordAttempt_eq]
    · exact applyAttempt_mastered_false _ _
    · rw [getQuestionStatus_recordAttempt, hm]
      simp

theorem mastered_after_threshold_witness :
    getQuestionProgress empty 4 = none ∧
    getQuestionStatus
      (run empty [.recordAttempt 4 true "t1" "t2", .recordAttempt 4 true "t3" "t4"]) 4
      = "mastered" ∧
    getQuestionStatus
      (recordAttempt
        (run empty [.recordAttempt 4 true "t1" "t2", .recordAttempt 4 true "t3" "t4"])
        4 false "t5" "t6").1 4 = "attempted" :=
  ⟨by decide,
   (mastered_after_threshold 4).2.1 empty "t1" "t2" "t3" "t4" (by decide),
   ((mastered_after_threshold 4).2.2
      (run empty [.recordAttempt 4 true "t1" "t2", .recordAttempt 4 true "t3" "t4"])
      "t5" "t6").2.2⟩

/-- C4 (fails on the code): after correct, correct, incorrect, correct the record
is mastered although the two most recent attempts were incorrect, correct: the
flag follows the total `correct` count, not the run of consecutive correct
answers. -/
theorem mastered_without_consecutive_correct :
    ∃ p, getQuestionProgress
        (run empty [.recordAttempt 1 true "t1" "t1", .recordAttempt 1 true "t2" "t2",
                    .recordAttempt 1 false "t3" "t3", .recordAttempt 1 true "t4" "t4"]) 1
        = some p ∧ p.mastered = true ∧ p.correct = 3 ∧ p.incorrect = 1 := by
  exact ⟨_, rfl, rfl, rfl, rfl⟩

/-- C5: `recordAttempt(id, false)` leaves `correct` unchanged and sets
`mastered = false`; hence a record with `correct ≥ 2` is mastered again after
an incorrect attempt followed by one correct attempt. -/
theorem incorrect_keeps_correct_count (d : Store) (id : Int) (p : Progress)
    (hp : getQuestionProgress d id = some p) :
    (∀ (created now : String),
      (recordAttempt d id false created now).2.correct = p.correct ∧
      (recordAttempt d id false created now).2.mastered = false ∧
      getQuestionProgress (recordAttempt d id false created now).1 id
        = some (recordAttempt d id false created now).2) ∧
    (MASTERY_THRESHOLD ≤ p.correct → ∀ (c1 n1 c2 n2 : String),
      ∃ r, getQuestionProgress
          (run d [.recordAttempt id false c1 n1, .recordAttempt id true c2 n2]) id = some r ∧
        r.mastered = true ∧ r.correct = p.correct + 1) := by
  have hp' : get d (key id) = some p := hp
  refine ⟨fun created now => ⟨?_, ?_, ?_⟩, fun hge c1 n1 c2 n2 => ?_⟩
  · simp [recordAttempt_eq, hp', applyAttempt_correct]
  · simp [recordAttempt_eq, applyAttempt_mastered_false]
  · rw [get_recordAttempt_self]
    simp only [recordAttempt_eq]
  · have h1 : get (recordAttempt d id false c1 n1).1 (key id)
        = some (applyAttempt p false n1) := by
      have := get_recordAttempt_self d id false c1 n1
      simpa [getQuestionProgress, hp'] using this
    show ∃ r, getQuestionProgress
        (recordAttempt (recordAttempt d id false c1 n1).1 id true c2 n2).1 id = some r ∧ _
    refine ⟨_, get_recordAttempt_self _ id true c2 n2, ?_, ?_⟩
    · simp only [h1, Option.getD_some, applyAttempt_mastered_true, applyAttempt_correct]
      simp only [MASTERY_THRESHOLD] at hge ⊢
      have : 2 ≤ p.correct + 0 + 1 := by omega
      simp [this]
    · simp [h1, applyAttempt_correct]

theorem incorrect_keeps_correct_count_witness :
    getQuestionProgress
        (run empty [.recordAttempt 2 true "a" "b", .recordAttempt 2 true "c" "d"]) 2
      = some { attempts := 2, correct := 2, incorrect := 0, lastAttempt := some "d",
               mastered := true, firstAttempt := some "a" } ∧
    ∃ r, getQuestionProgress
        (run (run empty [.recordAttempt 2 true "a" "b", .recordAttempt 2 true "c" "d"])
          [.recordAttempt 2 false "e" "f", .recordAttempt 2 true "g" "h"]) 2 = some r ∧
      r.mastered = true ∧ r.correct = 2 + 1 :=
  ⟨by decide,
   (incorrect_keeps_correct_count
      (run empty [.recordAttempt 2 true "a" "b", .recordAttempt 2 true "c" "d"]) 2
      { attempts := 2, correct := 2, incorrect := 0, lastAttempt := some "d",
        mastered := true, firstAttempt := some "a" } (by decide)).2 (by decide)
      "e" "f" "g" "h"⟩

/-- C10: `getQuestionStatus(id)` is one of `'new'`, `'attempted'`, `'mastered'`:
`'new'` exactly when the store has no record under `q_<id>`, `'mastered'`
exactly when the record has `mastered = true`, `'attempted'` exactly when it
has `mastered = false`. -/
theorem getQuestionStatus_spec (d : Store) (id : Int) :
    key id = "q_" ++ toString id ∧
    (getQuestionStatus d id = "new" ∨ getQuestionStatus d id = "attempted" ∨
      getQuestionStatus d id = "mastered") ∧
    (getQuestionStatus d id = "new" ↔ get d (key id) = none) ∧
    (getQuestionStatus d id = "mastered" ↔
      ∃ p, get d (key id) = some p ∧ p.mastered = true) ∧
    (getQuestionStatus d id = "attempted" ↔
      ∃ p, get d (key id) = some p ∧ p.mastered = false) := by
  refine ⟨rfl, ?_⟩
  unfold getQuestionStatus getQuestionProgress
  cases h : get d (key id) with
  | none => simp
  | some p =>
    cases hm : p.mastered <;> simp [hm]

end ProgressTracker

/-! ## Statistics -/

namespace ProgressTracker

theorem statsForQuestion_accuracy (d : Store) (stats : Stats) (qNum : Int) :
    (statsForQuestion d stats qNum).accuracy = stats.accuracy := by
  unfold statsForQuestion
  cases getQuestionProgress d qNum with
  | none => rfl
  | some p => cases hm : p.mastered <;> simp [hm]

theorem foldl_statsForQuestion_accuracy (d : Store) (ids : List Int) : ∀ stats : Stats,
    (ids.foldl (statsForQuestion d) stats).accuracy = stats.accuracy := by
  induction ids with
  | nil => intro stats; rfl
  | cons q rest ih =>
    intro stats
    rw [List.foldl_cons, ih, statsForQuestion_accuracy]

/-- C7: `getStatsForQuestions([])` is all zero, with `accuracy` the number `0`;
and for every id list the accuracy division is only performed with the divisor
`totalAttempts > 0`, otherwise `accuracy` stays `0`. -/
theorem getStatsForQuestions_no_division_by_zero (d : Store) :
    getStatsForQuestions d [] =
      { total := 0, new := 0, attempted := 0, mastered := 0, totalAttempts := 0,
        totalCorrect := 0, totalIncorrect := 0, accuracy := .zero } ∧
    ∀ ids : List Int,
      ((getStatsForQuestions d ids).accuracy = .zero ∧
        (getStatsForQuestions d ids).totalAttempts = 0) ∨
      ((getStatsForQuestions d ids).accuracy =
          .toFixed1 (getStatsForQuestions d ids).totalCorrect
            (getStatsForQuestions d ids).totalAttempts ∧
        0 < (getStatsForQuestions d ids).totalAttempts) := by
  refine ⟨rfl, fun ids => ?_⟩
  simp only [getStatsForQuestions, withAccuracy]
  split
  · next h => exact Or.inr ⟨rfl, h⟩
  · next h =>
    refine Or.inl ⟨?_, by omega⟩
    rw [foldl_statsForQuestion_accuracy]

end ProgressTracker

/-! ## Shuffle -/

namespace App

theorem cons_set_perm {α : Type} (x y : α) : ∀ (t : List α) (k : Nat),
    t[k]? = some y → (y :: t.set k x).Perm (x :: t) := by
  intro t
  induction t with
  | nil => intro k h; simp at h
  | cons h t ih =>
    intro k hk
    cases k with
    | zero =>
      simp only [List.getElem?_cons_zero, Option.some.injEq] at hk
      subst hk
      simpa using List.Perm.swap x h t
    | succ k =>
      simp only [List.getElem?_cons_succ] at hk
      simp only [List.set_cons_succ]
      exact ((List.Perm.swap h y _).trans ((ih k hk).cons h)).trans (List.Perm.swap x h t)

theorem swap_perm {α : Type} : ∀ (arr : List α) (i j : Nat), (swap arr i j).Perm arr := by
  intro arr
  induction arr with
  | nil => intro i j; simp [swap]
  | cons a t ih =>
    intro i j
    unfold swap
    cases hi : (a :: t)[i]? with
    | none => simp
    | some x =>
      cases hj : (a :: t)[j]? with
      | none => simp
      | some y =>
        simp only
        cases i with
        | zero =>
          simp only [List.getElem?_cons_zero, Option.some.injEq] at hi
          subst hi
          cases j with
          | zero =>
            simp only [List.getElem?_cons_zero, Option.some.injEq] at hj
            subst hj
            simp
          | succ j =>
            simp only [List.getElem?_cons_succ] at hj
            simpa using cons_set_perm a y t j hj
        | succ i =>
          simp only [List.getElem?_cons_succ] at hi
          cases j with
          | zero =>
            simp only [List.getElem?_cons_zero, Option.some.injEq] at hj
            subst hj
            simpa using cons_set_perm a x t i hi
          | succ j =>
            simp only [List.getElem?_cons_succ] at hj
            have h := ih i j
            simp only [swap, hi, hj] at h
            simpa using h.cons a

theorem shuffleLoop_array {α : Type} (rand : Draws) : ∀ (i : Nat) (s : ShuffleState α),
    (shuffleLoop rand i s).array = s.array := by
  intro i
  induction i with
  | zero => intro s; rfl
  | succ i ih => intro s; simp only [shuffleLoop, ih]

theorem shuffleLoop_perm {α : Type} (rand : Draws) : ∀ (i : Nat) (s : ShuffleState α),
    (shuffleLoop rand i s).arr.Perm s.arr := by
  intro i
  induction i with
  | zero => intro s; exact List.Perm.refl _
  | succ i ih =>
    intro s
    simp only [shuffleLoop]
    exact (ih _).trans (swap_perm s.arr (i + 1) (rand (i + 1)))

theorem shuffle_perm_input {α : Type} (rand : Draws) (array : List α) :
    (shuffle rand array).Perm array :=
  shuffleLoop_perm rand _ _

/-- C8: for every input array and every sequence of draws, `shuffle` returns a
permutation of the input (same length, same multiset of elements), and the
argument array is the same afterwards: the swaps are done on the copy. -/
theorem shuffle_perm {α : Type} (rand : Draws) (array : List α) :
    (shuffle rand array).Perm array ∧
    (shuffle rand array).length = array.length ∧
    (Multiset.ofList (shuffle rand array) = Multiset.ofList array) ∧
    (shuffleRun rand array).array = array := by
  have h : (shuffle rand array).Perm array := shuffle_perm_input rand array
  exact ⟨h, h.length_eq, Multiset.coe_eq_coe.2 h, shuffleLoop_array rand _ _⟩

end App

namespace App

theorem swap_length {α : Type} (arr : List α) (i j : Nat) :
    (swap arr i j).length = arr.length := (swap_perm arr i j).length_eq

theorem swap_getElem?_of_ne {α : Type} (arr : List α) (i j k : Nat) (hi : k ≠ i)
    (hj : k ≠ j) : (swap arr i j)[k]? = arr[k]? := by
  unfold swap
  cases h1 : arr[i]? with
  | none => rfl
  | some x =>
    cases h2 : arr[j]? with
    | none => rfl
    | some y =>
      simp only
      rw [List.getElem?_set_ne (Ne.symm hj), List.getElem?_set_ne (Ne.symm hi)]

theorem swap_getElem?_left {α : Type} (arr : List α) (i j : Nat) (hi : i < arr.length)
    (hj : j < arr.length) : (swap arr i j)[i]? = arr[j]? := by
  unfold swap
  have h1 : arr[i]? = some arr[i] := List.getElem?_eq_getElem hi
  have h2 : arr[j]? = some arr[j] := List.getElem?_eq_getElem hj
  rw [h1, h2]
  simp only
  by_cases hij : j = i
  · subst hij
    rw [List.getElem?_set_self (by simpa using hj)]
  · rw [List.getElem?_set_ne hij, List.getElem?_set_self hi]

theorem shuffleLoop_length {α : Type} (rand : Draws) (i : Nat) (s : ShuffleState α) :
    (shuffleLoop rand i s).arr.length = s.arr.length :=
  (shuffleLoop_perm rand i s).length_eq

/-- The loop entered with index `i` never writes above position `i`. -/
theorem shuffleLoop_getElem?_above {α : Type} (rand : Draws) : ∀ (i : Nat)
    (s : ShuffleState α) (k : Nat), i < k → (shuffleLoop rand i s).arr[k]? = s.arr[k]? := by
  intro i
  induction i with
  | zero => intro s k _; rfl
  | succ i ih =>
    intro s k hk
    simp only [shuffleLoop]
    rw [ih _ k (by omega)]
    have hj := (rand (i + 1)).isLt
    exact swap_getElem?_of_ne s.arr (i + 1) (rand (i + 1)) k (by omega) (by omega)

/-- On an array of distinct elements the output determines every draw. -/
theorem shuffleLoop_draws_eq {α : Type} (r1 r2 : Draws) : ∀ (i : Nat) (s : ShuffleState α),
    s.arr.Nodup → i < s.arr.length →
    (shuffleLoop r1 i s).arr = (shuffleLoop r2 i s).arr →
    ∀ k, 1 ≤ k → k ≤ i → r1 k = r2 k := by
  intro i
  induction i with
  | zero => intro s _ _ _ k h1 h2; omega
  | succ i ih =>
    intro s hnd hlen hout k hk1 hk2
    simp only [shuffleLoop] at hout
    have hj1 := (r1 (i + 1)).isLt
    have hj2 := (r2 (i + 1)).isLt
    have e1 : (shuffleLoop r1 i { s with arr := swap s.arr (i + 1) (r1 (i + 1)) }).arr[i + 1]?
        = s.arr[(r1 (i + 1)).val]? := by
      rw [shuffleLoop_getElem?_above r1 i _ (i + 1) (by omega)]
      exact swap_getElem?_left s.arr (i + 1) _ hlen (by omega)
    have e2 : (shuffleLoop r2 i { s with arr := swap s.arr (i + 1) (r2 (i + 1)) }).arr[i + 1]?
        = s.arr[(r2 (i + 1)).val]? := by
      rw [shuffleLoop_getElem?_above r2 i _ (i + 1) (by omega)]
      exact swap_getElem?_left s.arr (i + 1) _ hlen (by omega)
    have hval : (r1 (i + 1)).val = (r2 (i + 1)).val := by
      apply List.getElem?_inj (by omega) hnd
      rw [← e1, ← e2, hout]
    have hlast : r1 (i + 1) = r2 (i + 1) := Fin.ext hval
    by_cases hki : k = i + 1
    · subst hki; exact hlast
    · rw [← hlast] at hout
      exact ih { s with arr := swap s.arr (i + 1) (r1 (i + 1)) }
        ((swap_perm s.arr _ _).nodup_iff.2 hnd) (by simp only [swap_length]; omega) hout
        k hk1 (by omega)

theorem shuffle_drawsOf_injective {α : Type} (a : List α) (hnd : a.Nodup) :
    Function.Injective (fun v : DrawSeq a.length => shuffle (drawsOf v) a) := by
  intro v1 v2 h
  funext k
  have hk := k.isLt
  have hlen : 0 < a.length := by omega
  have h' := shuffleLoop_draws_eq (drawsOf v1) (drawsOf v2) (a.length - 1)
    { array := a, arr := a } hnd (by simp only; omega) h (k.val + 1) (by omega) (by omega)
  have hc : 1 ≤ k.val + 1 ∧ k.val + 1 < a.length := ⟨by omega, by omega⟩
  simp only [drawsOf, hc, and_self, dif_pos, Fin.mk.injEq] at h'
  exact Fin.ext h'

theorem card_drawSeq (n : Nat) : Fintype.card (DrawSeq n) = n.factorial := by
  rw [Fintype.card_pi]
  simp only [Fintype.card_fin]
  rw [Fin.prod_univ_eq_prod_range (fun k => k + 2) (n - 1)]
  cases n with
  | zero => simp
  | succ m =>
    simp only [Nat.add_sub_cancel]
    rw [← Finset.prod_range_add_one_eq_factorial (m + 1), Finset.prod_range_succ']
    simp

end App

namespace App

theorem shuffle_drawsOf_surjective {α : Type} (a : List α) (hnd : a.Nodup) (l : List α)
    (hl : l.Perm a) : ∃ v : DrawSeq a.length, shuffle (drawsOf v) a = l := by
  classical
  let f : DrawSeq a.length → List α := fun v => shuffle (drawsOf v) a
  have hsub : Finset.univ.image f ⊆ a.permutations.toFinset := by
    intro x hx
    obtain ⟨v, _, rfl⟩ := Finset.mem_image.1 hx
    exact List.mem_toFinset.2 (List.mem_permutations.2 (shuffle_perm_input (drawsOf v) a))
  have hcard : a.permutations.toFinset.card ≤ (Finset.univ.image f).card := by
    rw [Finset.card_image_of_injective _ (shuffle_drawsOf_injective a hnd), Finset.card_univ,
      card_drawSeq, List.toFinset_card_of_nodup (List.nodup_permutations a hnd),
      List.length_permutations]
  have heq := Finset.eq_of_subset_of_card_le hsub hcard
  have hmem : l ∈ Finset.univ.image f := by
    rw [heq]
    exact List.mem_toFinset.2 (List.mem_permutations.2 hl)
  obtain ⟨v, _, hv⟩ := Finset.mem_image.1 hmem
  exact ⟨v, hv⟩

/-- C9: on an array of `n` pairwise distinct elements the output of `shuffle`
determines the draws, the map from draw sequences (one `j` in `0..i` for each
`i = n - 1, ..., 1`) to outputs is injective with range exactly the
permutations of the input, there are `n!` draw sequences and `n!`
permutations, and every permutation is the output of exactly one of the `n!`
draw sequences, hence has probability `1 / n!` under uniform draws. -/
theorem shuffle_unbiased {α : Type} [DecidableEq α] (a : List α) (hnd : a.Nodup) :
    (∀ r1 r2 : Draws, shuffle r1 a = shuffle r2 a →
      ∀ i, 1 ≤ i → i < a.length → r1 i = r2 i) ∧
    Function.Injective (fun v : DrawSeq a.length => shuffle (drawsOf v) a) ∧
    (∀ l : List α, l.Perm a ↔ ∃ v : DrawSeq a.length, shuffle (drawsOf v) a = l) ∧
    Fintype.card (DrawSeq a.length) = a.length.factorial ∧
    a.permutations.toFinset.card = a.length.factorial ∧
    (∀ l : List α, l.Perm a →
      (Finset.univ.filter (fun v : DrawSeq a.length => shuffle (drawsOf v) a = l)).card = 1 ∧
      (((Finset.univ.filter
          (fun v : DrawSeq a.length => shuffle (drawsOf v) a = l)).card : ℚ)
        / (Fintype.card (DrawSeq a.length) : ℚ) = 1 / (a.length.factorial : ℚ))) := by
  have hinj := shuffle_drawsOf_injective a hnd
  refine ⟨?_, hinj, ?_, card_drawSeq _, ?_, ?_⟩
  · intro r1 r2 h i hi1 hi2
    exact shuffleLoop_draws_eq r1 r2 (a.length - 1) { array := a, arr := a } hnd
      (by simp only; omega) h i hi1 (by omega)
  · intro l
    constructor
    · exact shuffle_drawsOf_surjective a hnd l
    · rintro ⟨v, rfl⟩
      exact shuffle_perm_input (drawsOf v) a
  · rw [List.toFinset_card_of_nodup (List.nodup_permutations a hnd), List.length_permutations]
  · intro l hl
    obtain ⟨v0, hv0⟩ := shuffle_drawsOf_surjective a hnd l hl
    have hone : (Finset.univ.filter
        (fun v : DrawSeq a.length => shuffle (drawsOf v) a = l)).card = 1 := by
      rw [Finset.card_eq_one]
      refine ⟨v0, ?_⟩
      ext v
      simp only [Finset.mem_filter, Finset.mem_univ, true_and, Finset.mem_singleton]
      constructor
      · intro hv
        exact hinj (hv.trans hv0.symm)
      · rintro rfl
        exact hv0
    refine ⟨hone, ?_⟩
    rw [hone, card_drawSeq]
    simp

theorem shuffle_unbiased_witness :
    ([10, 20, 30] : List Nat).Nodup ∧
    (∀ l : List Nat, l.Perm [10, 20, 30] ↔
      ∃ v : DrawSeq ([10, 20, 30] : List Nat).length, shuffle (drawsOf v) [10, 20, 30] = l) ∧
    Fintype.card (DrawSeq ([10, 20, 30] : List Nat).length) = 6 :=
  ⟨by decide, (shuffle_unbiased [10, 20, 30] (by decide)).2.2.1,
   (shuffle_unbiased [10, 20, 30] (by decide)).2.2.2.1⟩

end App

/-! ## Export and import -/

namespace ProgressTracker

theorem keys_set (d : Store) (k : String) (p : Progress) :
    (set d k p).map Prod.fst
      = if k ∈ d.map Prod.fst then d.map Prod.fst else d.map Prod.fst ++ [k] := by
  induction d with
  | nil => simp [set]
  | cons e rest ih =>
    obtain ⟨k0, p0⟩ := e
    by_cases h0 : k0 = k
    · subst h0
      simp [set]
    · have h0' : ¬ k = k0 := fun h => h0 h.symm
      by_cases hmem : k ∈ rest.map Prod.fst
      · simp only [set, h0, if_false, List.map_cons, ih, hmem, if_true, List.mem_cons,
          or_true]
      · simp only [set, h0, if_false, List.map_cons, ih, hmem, List.mem_cons, h0',
          or_self, List.cons_append]

theorem keys_nodup_step (d : Store) (op : Op) (h : (d.map Prod.fst).Nodup) :
    ((step d op).map Prod.fst).Nodup := by
  cases op with
  | recordAttempt q c created now =>
    simp only [step, recordAttempt_eq, keys_set]
    split
    · exact h
    · next hk =>
      exact List.nodup_append.2 ⟨h, List.nodup_singleton _, by simpa using hk⟩
  | resetQuestion q =>
    simp only [step, resetQuestion, delete]
    exact h.sublist ((List.filter_sublist _).map _)
  | resetAll => simp [step, resetAll]

theorem keys_nodup_run (ops : List Op) : ∀ d : Store, (d.map Prod.fst).Nodup →
    ((run d ops).map Prod.fst).Nodup := by
  induction ops with
  | nil => intro d h; simpa [run] using h
  | cons op rest ih => intro d h; exact ih (step d op) (keys_nodup_step d op h)

theorem parsesBack_recordValue (ind : List Char) (hind : ∀ c ∈ ind, JSON.isWhitespace c = true)
    (p : Progress) : JSON.ParsesBack ind (recordValue p) := by
  unfold recordValue
  apply JSON.parsesBack_object ind hind
  · intro x hx
    have hlast : JSON.ParsesBack (' ' :: ' ' :: ind)
        (match p.lastAttempt with
          | none => JSON.Value.null
          | some t => JSON.Value.string t) := by
      cases p.lastAttempt with
      | none => exact JSON.parsesBack_null _
      | some t => exact JSON.parsesBack_string _ t
    cases hf : p.firstAttempt with
    | none =>
      simp only [hf, List.append_nil, List.mem_cons, List.mem_singleton, List.not_mem_nil,
        or_false] at hx
      rcases hx with h | h | h | h | h <;> subst h
      · exact JSON.parsesBack_nat _ _
      · exact JSON.parsesBack_nat _ _
      · exact JSON.parsesBack_nat _ _
      · exact hlast
      · exact JSON.parsesBack_bool _ _
    | some t =>
      simp only [hf, List.cons_append, List.nil_append, List.mem_cons, List.mem_singleton,
        List.not_mem_nil, or_false] at hx
      rcases hx with h | h | h | h | h | h <;> subst h
      · exact JSON.parsesBack_nat _ _
      · exact JSON.parsesBack_nat _ _
      · exact JSON.parsesBack_nat _ _
      · exact hlast
      · exact JSON.parsesBack_bool _ _
      · exact JSON.parsesBack_string _ t
  · cases p.firstAttempt with
    | none =>
      simp only [List.append_nil, List.map_cons, List.map_nil]
      decide
    | some t =>
      simp only [List.cons_append, List.nil_append, List.map_cons, List.map_nil]
      decide

theorem parsesBack_toValue (d : Store) (hnd : (d.map Prod.fst).Nodup) :
    JSON.ParsesBack [] (toValue d) := by
  unfold toValue
  apply JSON.parsesBack_object [] (by simp)
  · intro x hx
    obtain ⟨e, _, rfl⟩ := List.mem_map.1 hx
    exact parsesBack_recordValue _ (by
      intro c hc
      simp only [List.mem_cons, List.not_mem_nil, or_false] at hc
      rcases hc with h | h <;> subst h <;> decide) e.2
  · simpa [List.map_map, Function.comp_def] using hnd

theorem recordValue_injective : Function.Injective recordValue := by
  intro p q h
  obtain ⟨a1, c1, i1, l1, m1, f1⟩ := p
  obtain ⟨a2, c2, i2, l2, m2, f2⟩ := q
  unfold recordValue at h
  cases l1 <;> cases l2 <;> cases f1 <;> cases f2 <;> simp at h <;>
    (simp only [Progress.mk.injEq]; simp [h])

theorem toValue_injective : Function.Injective toValue := by
  intro d1 d2 h
  unfold toValue at h
  simp only [JSON.Value.object.injEq] at h
  refine List.map_injective_iff.2 ?_ h
  intro e1 e2 he
  simp only [Prod.mk.injEq] at he
  exact Prod.ext he.1 (recordValue_injective he.2)

/-- C6: for every store reached from the empty store by `recordAttempt`,
`resetQuestion` and `resetAll` calls, `import(export())` returns `true` and
leaves in `this.data` the same object; two stores denote the same object only
if they have the same keys in the same order and, for each key, the same
`attempts`, `correct`, `incorrect`, `lastAttempt`, `firstAttempt` and
`mastered` (`toValue` is injective). -/
theorem import_export_roundtrip (ops : List Op) :
    ProgressTracker.import platformJSON (toValue (run empty ops))
        (ProgressTracker.export platformJSON (toValue (run empty ops)))
      = (true, toValue (run empty ops)) ∧
    Function.Injective toValue := by
  have hparse : JSON.parse (JSON.stringify (toValue (run empty ops)))
      = some (toValue (run empty ops)) :=
    JSON.parse_stringify _ (parsesBack_toValue _ (keys_nodup_run ops empty (by simp [empty])))
  refine ⟨?_, toValue_injective⟩
  simp only [«import», «export», platformJSON, hparse]

end ProgressTracker

/-! ## Import, persistence of records, aggregate statistics -/

namespace ProgressTracker

/-- C11: `import` fails closed only on a parse failure: when `JSON.parse`
throws, it returns `false` and `this.data` is unchanged; when `JSON.parse`
returns a value, whatever its shape, it returns `true` and `this.data` is
exactly that value. -/
theorem import_fails_closed {Value : Type} (JSON : JsonApi Value) (data : Value)
    (jsonString : String) :
    (JSON.parse jsonString = none →
      ProgressTracker.import JSON data jsonString = (false, data)) ∧
    (∀ imported : Value, JSON.parse jsonString = some imported →
      ProgressTracker.import JSON data jsonString = (true, imported)) := by
  constructor
  · intro h
    simp only [«import», h]
  · intro imported h
    simp only [«import», h]

theorem import_fails_closed_witness :
    platformJSON.parse "[1, 2" = none ∧
    ProgressTracker.import platformJSON (toValue empty) "[1, 2" = (false, toValue empty) ∧
    platformJSON.parse "[1, 2]" = some (.array [.number 1, .number 2]) ∧
    ProgressTracker.import platformJSON (toValue empty) "[1, 2]"
      = (true, .array [.number 1, .number 2]) :=
  ⟨rfl, (import_fails_closed platformJSON (toValue empty) "[1, 2").1 rfl, rfl,
   (import_fails_closed platformJSON (toValue empty) "[1, 2]").2 _ rfl⟩

theorem keys_delete (d : Store) (k : String) :
    (delete d k).map Prod.fst = (d.map Prod.fst).filter (fun k' => decide (k' ≠ k)) := by
  induction d with
  | nil => rfl
  | cons e rest ih =>
    obtain ⟨k0, p0⟩ := e
    unfold delete at ih ⊢
    by_cases h0 : k0 = k
    · simpa [List.filter_cons, h0] using ih
    · simpa [List.filter_cons, h0] using ih

theorem get_isSome_iff_mem_keys (d : Store) (k : String) :
    (get d k).isSome = true ↔ k ∈ d.map Prod.fst := by
  induction d with
  | nil => simp [get]
  | cons e rest ih =>
    obtain ⟨k0, p0⟩ := e
    by_cases h0 : k0 = k
    · simp [get, h0]
    · have h0' : ¬ k = k0 := fun h => h0 h.symm
      simp [get, h0, h0', ih]

/-- C12: for ids `a ≠ b`, `recordAttempt(a, isCorrect)` leaves the record of `b`
exactly as it was (the same record, or still absent) and removes no key from
the store; `resetQuestion(a)` removes the key `q_<a>` and nothing else. -/
theorem records_persist (d : Store) (a b : Int) (hab : a ≠ b) (isCorrect : Bool)
    (created now : String) :
    getQuestionProgress (recordAttempt d a isCorrect created now).1 b
      = getQuestionProgress d b ∧
    (∀ k : String, k ≠ key a →
      get (recordAttempt d a isCorrect created now).1 k = get d k) ∧
    (∀ k : String, k ∈ d.map Prod.fst →
      k ∈ (recordAttempt d a isCorrect created now).1.map Prod.fst) ∧
    (resetQuestion d a).map Prod.fst
      = (d.map Prod.fst).filter (fun k => decide (k ≠ key a)) ∧
    (∀ k : String, k ≠ key a → get (resetQuestion d a) k = get d k) ∧
    getQuestionProgress (resetQuestion d a) b = getQuestionProgress d b ∧
    getQuestionProgress (resetQuestion d a) a = none := by
  have hk : key b ≠ key a := fun h => hab (key_injective h).symm
  refine ⟨get_recordAttempt_other d a b isCorrect created now (Ne.symm hab), ?_, ?_,
    keys_delete d (key a), fun k hne => get_delete_other d (key a) k hne,
    get_delete_other d (key a) (key b) hk, get_delete_self d (key a)⟩
  · intro k hne
    simp only [recordAttempt_eq]
    exact get_set_other d (key a) k _ hne
  · intro k hmem
    simp only [recordAttempt_eq, keys_set]
    split
    · exact hmem
    · exact List.mem_append_left _ hmem

theorem records_persist_witness :
    (3 : Int) ≠ 8 ∧
    getQuestionProgress
        (recordAttempt [("q_8", freshProgress "t0"), ("q_3", freshProgress "t1")]
          3 true "t2" "t3").1 8 = some (freshProgress "t0") ∧
    getQuestionProgress
        (resetQuestion [("q_8", freshProgress "t0"), ("q_3", freshProgress "t1")] 3) 8
      = some (freshProgress "t0") :=
  ⟨by decide,
   (records_persist [("q_8", freshProgress "t0"), ("q_3", freshProgress "t1")] 3 8
      (by decide) true "t2" "t3").1,
   (records_persist [("q_8", freshProgress "t0"), ("q_3", freshProgress "t1")] 3 8
      (by decide) true "t2" "t3").2.2.2.2.2.1⟩

end ProgressTracker

namespace ProgressTracker

/-- What the `forEach` loop of `getStatsForQuestions` adds to each field. -/
theorem foldl_statsForQuestion (d : Store) (ids : List Int) : ∀ stats : Stats,
    (ids.foldl (statsForQuestion d) stats).total = stats.total ∧
    (ids.foldl (statsForQuestion d) stats).new
      = stats.new + (ids.filter (fun q => (getQuestionProgress d q).isNone)).length ∧
    (ids.foldl (statsForQuestion d) stats).mastered
      = stats.mastered
        + ((ids.filterMap (getQuestionProgress d)).filter (fun p => p.mastered)).length ∧
    (ids.foldl (statsForQuestion d) stats).attempted
      = stats.attempted
        + ((ids.filterMap (getQuestionProgress d)).filter (fun p => !p.mastered)).length ∧
    (ids.foldl (statsForQuestion d) stats).totalAttempts
      = stats.totalAttempts
        + ((ids.filterMap (getQuestionProgress d)).map (fun p => p.attempts)).sum ∧
    (ids.foldl (statsForQuestion d) stats).totalCorrect
      = stats.totalCorrect
        + ((ids.filterMap (getQuestionProgress d)).map (fun p => p.correct)).sum ∧
    (ids.foldl (statsForQuestion d) stats).totalIncorrect
      = stats.totalIncorrect
        + ((ids.filterMap (getQuestionProgress d)).map (fun p => p.incorrect)).sum := by
  induction ids with
  | nil => intro stats; simp
  | cons q rest ih =>
    intro stats
    obtain ⟨h1, h2, h3, h4, h5, h6, h7⟩ := ih (statsForQuestion d stats q)
    simp only [List.foldl_cons, h1, h2, h3, h4, h5, h6, h7]
    cases hq : getQuestionProgress d q with
    | none =>
      simp only [statsForQuestion, hq, List.filter_cons, List.filterMap_cons,
        Option.isNone_none, if_true, List.length_cons]
      refine ⟨?_, ?_, ?_, ?_, ?_, ?_, ?_⟩ <;> first | trivial | rfl | omega
    | some p =>
      cases hm : p.mastered with
      | true =>
        simp only [statsForQuestion, hq, hm, List.filter_cons, List.filterMap_cons,
          Option.isNone_some, if_true, List.length_cons, List.map_cons, List.sum_cons,
          Bool.false_eq_true, if_false, Bool.not_true]
        refine ⟨?_, ?_, ?_, ?_, ?_, ?_, ?_⟩ <;> first | trivial | rfl | omega
      | false =>
        simp only [statsForQuestion, hq, hm, List.filter_cons, List.filterMap_cons,
          Option.isNone_some, if_true, List.length_cons, List.map_cons, List.sum_cons,
          Bool.false_eq_true, if_false, Bool.not_false]
        refine ⟨?_, ?_, ?_, ?_, ?_, ?_, ?_⟩ <;> first | trivial | rfl | omega

theorem withAccuracy_fields (s : Stats) :
    (withAccuracy s).total = s.total ∧ (withAccuracy s).new = s.new ∧
    (withAccuracy s).mastered = s.mastered ∧ (withAccuracy s).attempted = s.attempted ∧
    (withAccuracy s).totalAttempts = s.totalAttempts ∧
    (withAccuracy s).totalCorrect = s.totalCorrect ∧
    (withAccuracy s).totalIncorrect = s.totalIncorrect := by
  unfold withAccuracy
  split <;> exact ⟨rfl, rfl, rfl, rfl, rfl, rfl, rfl⟩

/-- C13: `getStatsForQuestions(ids)` returns `total` = the length of the list,
`new` = the number of listed ids without a record, `mastered` / `attempted` =
the number of listed ids whose record has `mastered` true / false, and
`totalAttempts`, `totalCorrect`, `totalIncorrect` = the sums of those fields
over the listed ids that have a record; hence
`new + attempted + mastered = total`. -/
theorem getStatsForQuestions_spec (d : Store) (ids : List Int) :
    (getStatsForQuestions d ids).total = ids.length ∧
    (getStatsForQuestions d ids).new
      = (ids.filter (fun q => (getQuestionProgress d q).isNone)).length ∧
    (getStatsForQuestions d ids).mastered
      = ((ids.filterMap (getQuestionProgress d)).filter (fun p => p.mastered)).length ∧
    (getStatsForQuestions d ids).attempted
      = ((ids.filterMap (getQuestionProgress d)).filter (fun p => !p.mastered)).length ∧
    (getStatsForQuestions d ids).totalAttempts
      = ((ids.filterMap (getQuestionProgress d)).map (fun p => p.attempts)).sum ∧
    (getStatsForQuestions d ids).totalCorrect
      = ((ids.filterMap (getQuestionProgress d)).map (fun p => p.correct)).sum ∧
    (getStatsForQuestions d ids).totalIncorrect
      = ((ids.filterMap (getQuestionProgress d)).map (fun p => p.incorrect)).sum ∧
    (getStatsForQuestions d ids).new + (getStatsForQuestions d ids).attempted
      + (getStatsForQuestions d ids).mastered = (getStatsForQuestions d ids).total := by
  obtain ⟨w1, w2, w3, w4, w5, w6, w7⟩ := withAccuracy_fields
    (ids.foldl (statsForQuestion d)
      { total := ids.length, new := 0, attempted := 0, mastered := 0,
        totalAttempts := 0, totalCorrect := 0, totalIncorrect := 0, accuracy := .zero })
  obtain ⟨h1, h2, h3, h4, h5, h6, h7⟩ := foldl_statsForQuestion d ids
    { total := ids.length, new := 0, attempted := 0, mastered := 0,
      totalAttempts := 0, totalCorrect := 0, totalIncorrect := 0, accuracy := .zero }
  have e1 : (getStatsForQuestions d ids).total = ids.length := w1.trans h1
  have e2 := w2.trans h2
  have e3 := w3.trans h3
  have e4 := w4.trans h4
  have e5 := w5.trans h5
  have e6 := w6.trans h6
  have e7 := w7.trans h7
  simp only [Nat.zero_add] at e2 e3 e4 e5 e6 e7
  refine ⟨e1, e2, e3, e4, e5, e6, e7, ?_⟩
  show (getStatsForQuestions d ids).new + (getStatsForQuestions d ids).attempted
      + (getStatsForQuestions d ids).mastered = (getStatsForQuestions d ids).total
  rw [e1]
  have e2' : (getStatsForQuestions d ids).new
      = (ids.filter (fun q => (getQuestionProgress d q).isNone)).length := e2
  have e3' : (getStatsForQuestions d ids).mastered
      = ((ids.filterMap (getQuestionProgress d)).filter (fun p => p.mastered)).length := e3
  have e4' : (getStatsForQuestions d ids).attempted
      = ((ids.filterMap (getQuestionProgress d)).filter (fun p => !p.mastered)).length := e4
  rw [e2', e3', e4']
  clear e1 e2 e3 e4 e5 e6 e7 e2' e3' e4' w1 w2 w3 w4 w5 w6 w7 h1 h2 h3 h4 h5 h6 h7
  induction ids with
  | nil => rfl
  | cons q rest ih =>
    cases hq : getQuestionProgress d q with
    | none =>
      simp only [List.filter_cons, List.filterMap_cons, hq, Option.isNone_none, if_true,
        List.length_cons]
      omega
    | some p =>
      cases hm : p.mastered <;>
        simp only [List.filter_cons, List.filterMap_cons, hq, hm, Option.isNone_some,
          if_true, List.length_cons, Bool.false_eq_true, if_false, Bool.not_true,
          Bool.not_false] <;> omega

/-- C14: after `resetAll()` the store is empty: for every id
`getQuestionProgress(id)` is `null` and `getQuestionStatus(id)` is `'new'`, and
`getStats()` is all zero. -/
theorem resetAll_clears (d : Store) :
    resetAll d = empty ∧
    (∀ id : Int, getQuestionProgress (resetAll d) id = none ∧
      getQuestionStatus (resetAll d) id = "new") ∧
    (∀ k : String, get (resetAll d) k = none) ∧
    getStats (resetAll d) =
      { total := 0, new := 0, attempted := 0, mastered := 0, totalAttempts := 0,
        totalCorrect := 0, totalIncorrect := 0, accuracy := .zero } :=
  ⟨rfl, fun _ => ⟨rfl, rfl⟩, fun _ => rfl, rfl⟩

end ProgressTracker

/-! ## Closed form of the mastery flag -/

namespace ProgressTracker

/-- The record of `id` after a sequence of `recordAttempt` calls: the calls on
`id` applied in order to the record it had, the first one creating it if it
was absent. -/
theorem run_calls_record (id : Int) (calls : List Call) : ∀ d : Store,
    getQuestionProgress (run d (calls.map Call.toOp)) id
      = (callsOn id calls).foldl
          (fun r c => some (applyAttempt (r.getD (freshProgress c.created)) c.isCorrect c.now))
          (getQuestionProgress d id) := by
  induction calls with
  | nil => intro d; rfl
  | cons c rest ih =>
    intro d
    simp only [List.map_cons, run_cons]
    rw [ih (step d c.toOp)]
    by_cases hc : c.questionNumber = id
    · have hcons : callsOn id (c :: rest) = c :: callsOn id rest := by simp [callsOn, hc]
      have hget : getQuestionProgress (step d c.toOp) id
          = some (applyAttempt ((get d (key id)).getD (freshProgress c.created))
              c.isCorrect c.now) := by
        simp only [step, Call.toOp, hc]
        exact get_recordAttempt_self d id c.isCorrect c.created c.now
      rw [hcons, hget, List.foldl_cons]
      rfl
    · have hcons : callsOn id (c :: rest) = callsOn id rest := by simp [callsOn, hc]
      have hget : getQuestionProgress (step d c.toOp) id = getQuestionProgress d id := by
        simp only [step, Call.toOp]
        exact get_recordAttempt_other d c.questionNumber id c.isCorrect c.created c.now
          (fun h => hc h.symm)
      rw [hcons, hget]

/-- Closed form of the record built from nothing by a non-empty sequence of
attempts. -/
theorem foldl_applyAttempt_closed (cs : List Call) (hne : cs ≠ []) :
    ∃ p, cs.foldl
        (fun r c => some (applyAttempt (r.getD (freshProgress c.created)) c.isCorrect c.now))
        none = some p ∧
      p.correct = (cs.filter (fun c => c.isCorrect)).length ∧
      (p.mastered = true ↔
        (cs.getLast?.map (fun c => c.isCorrect) = some true ∧
          MASTERY_THRESHOLD ≤ (cs.filter (fun c => c.isCorrect)).length)) := by
  induction cs using List.reverseRecOn with
  | nil => exact absurd rfl hne
  | append_singleton l c ih =>
    simp only [List.foldl_append, List.foldl_cons, List.foldl_nil, List.getLast?_concat,
      Option.map_some', Option.some.injEq, List.filter_append, List.length_append]
    refine ⟨_, rfl, ?_, ?_⟩
    · rw [applyAttempt_correct]
      by_cases hl : l = []
      · subst hl
        cases hc : c.isCorrect <;> simp [List.filter_cons, hc, freshProgress]
      · obtain ⟨p, hp, hcorr, _⟩ := ih hl
        rw [hp]
        cases hc : c.isCorrect <;> simp [List.filter_cons, hc, hcorr]
    · cases hc : c.isCorrect with
      | false => simp [applyAttempt_mastered_false]
      | true =>
        rw [applyAttempt_mastered_true]
        by_cases hl : l = []
        · subst hl
          simp [List.filter_cons, hc, freshProgress, MASTERY_THRESHOLD]
        · obtain ⟨p, hp, hcorr, hm⟩ := ih hl
          rw [hp]
          simp only [Option.getD_some, List.filter_cons, hc, if_true, List.filter_nil,
            List.length_singleton, Bool.or_eq_true, decide_eq_true_eq, true_and, hcorr]
          constructor
          · rintro (h | h)
            · exact h
            · have := (hm.1 h).2
              omega
          · intro h
            exact Or.inl h

/-- C19: for a question `id` without a record and a sequence of `recordAttempt`
calls of which at least one is on `id`, the resulting record has
`mastered = true` exactly when the last attempt on `id` was correct and the
number of correct attempts on `id` is at least `MASTERY_THRESHOLD` (= 2). -/
theorem mastered_closed_form (d : Store) (id : Int) (calls : List Call)
    (hnew : getQuestionProgress d id = none) (hne : callsOn id calls ≠ []) :
    MASTERY_THRESHOLD = 2 ∧
    ∃ p, getQuestionProgress (run d (calls.map Call.toOp)) id = some p ∧
      (p.mastered = true ↔
        ((callsOn id calls).getLast?.map (fun c => c.isCorrect) = some true ∧
          MASTERY_THRESHOLD ≤ ((callsOn id calls).filter (fun c => c.isCorrect)).length)) := by
  refine ⟨rfl, ?_⟩
  obtain ⟨p, hp, _, hm⟩ := foldl_applyAttempt_closed (callsOn id calls) hne
  refine ⟨p, ?_, hm⟩
  rw [run_calls_record, hnew, hp]

theorem mastered_closed_form_witness :
    ∃ p, getQuestionProgress
        (run empty
          ([⟨6, true, "a", "b"⟩, ⟨6, true, "c", "d"⟩, ⟨2, true, "e", "f"⟩,
            ⟨6, false, "g", "h"⟩, ⟨6, true, "i", "j"⟩].map Call.toOp)) 6 = some p ∧
      (p.mastered = true ↔
        ((callsOn 6 [⟨6, true, "a", "b"⟩, ⟨6, true, "c", "d"⟩, ⟨2, true, "e", "f"⟩,
            ⟨6, false, "g", "h"⟩, ⟨6, true, "i", "j"⟩]).getLast?.map
              (fun c => c.isCorrect) = some true ∧
          MASTERY_THRESHOLD ≤
            ((callsOn 6 [⟨6, true, "a", "b"⟩, ⟨6, true, "c", "d"⟩, ⟨2, true, "e", "f"⟩,
              ⟨6, false, "g", "h"⟩, ⟨6, true, "i", "j"⟩]).filter
                (fun c => c.isCorrect)).length)) :=
  (mastered_closed_form empty 6
    [⟨6, true, "a", "b"⟩, ⟨6, true, "c", "d"⟩, ⟨2, true, "e", "f"⟩,
     ⟨6, false, "g", "h"⟩, ⟨6, true, "i", "j"⟩] (by decide) (by decide)).2

end ProgressTracker

/-! ## Search and status filter -/

namespace App

open ProgressTracker

theorem filterMap_getElem?_range {α : Type} (l : List α) :
    (List.range l.length).filterMap (fun i => l[i]?) = l := by
  induction l using List.reverseRecOn with
  | nil => rfl
  | append_singleton l a ih =>
    rw [List.length_append, List.length_singleton, List.range_succ, List.filterMap_append]
    have h1 : (List.range l.length).filterMap (fun i => (l ++ [a])[i]?)
        = (List.range l.length).filterMap (fun i => l[i]?) := by
      apply List.filterMap_congr
      intro i hi
      exact List.getElem?_append_left (List.mem_range.1 hi)
    rw [h1, ih]
    simp

/-- Filtering references by a property of the objects they refer to. -/
theorem filterMap_filter_refs {α : Type} (l : List α) (p : α → Bool) (P : Nat → Bool)
    (refs : List Nat) (hP : ∀ i q, l[i]? = some q → P i = p q) :
    (refs.filter P).filterMap (fun i => l[i]?)
      = (refs.filterMap (fun i => l[i]?)).filter p := by
  induction refs with
  | nil => rfl
  | cons i rest ih =>
    cases hi : l[i]? with
    | none =>
      cases hPi : P i <;> simp [List.filter_cons, List.filterMap_cons, hi, hPi, ih]
    | some q =>
      have := hP i q hi
      cases hp : p q <;> simp [List.filter_cons, List.filterMap_cons, hi, hp, this, ih]

theorem updateProgressStats_frame (s : AppState) :
    (updateProgressStats s).questions = s.questions ∧
    (updateProgressStats s).filteredQuestions = s.filteredQuestions ∧
    (updateProgressStats s).data = s.data ∧
    (updateProgressStats s).search = s.search ∧
    (updateProgressStats s).statusFilter = s.statusFilter :=
  ⟨rfl, rfl, rfl, rfl, rfl⟩

theorem recalcStats_frame (s : AppState) :
    (recalcStats s).questions = s.questions ∧
    (recalcStats s).filteredQuestions = s.filteredQuestions ∧
    (recalcStats s).data = s.data ∧
    (recalcStats s).search = s.search ∧
    (recalcStats s).statusFilter = s.statusFilter :=
  ⟨rfl, rfl, rfl, rfl, rfl⟩

/-- C15: after `applySearch`, `filteredQuestions` refers to exactly the
questions `q`, in their order in `questions`, such that (the trimmed,
lower-cased search term is empty, or it is a substring of the lower-cased
space-joined prompt texts of `q`, or of the lower-cased space-joined texts of
the answers of `q`) and (`statusFilter` is `'all'` or `q.status` equals it);
`questions`, `search`, `statusFilter` and the tracker are unchanged. -/
theorem applySearch_spec (S : StringApi) (s : AppState) :
    (applySearch S s).filtered
      = s.questions.filter (fun q =>
          (decide (S.toLowerCase (S.trim s.search) = "") ||
            includes
              (S.toLowerCase
                (joinSpace [q.question_german, q.question_english, q.question_arabic]))
              (S.toLowerCase (S.trim s.search)) ||
            includes
              (S.toLowerCase
                (joinSpace (q.answers.map
                  (fun a => a.text_german ++ " " ++ a.text_english ++ " " ++ a.text_arabic))))
              (S.toLowerCase (S.trim s.search))) &&
          (decide (s.statusFilter = "all") || decide (q.status = s.statusFilter))) ∧
    (applySearch S s).filtered.Sublist s.questions ∧
    (applySearch S s).questions = s.questions ∧
    (applySearch S s).search = s.search ∧
    (applySearch S s).statusFilter = s.statusFilter ∧
    (applySearch S s).data = s.data := by
  have hmain : (applySearch S s).filtered
      = s.questions.filter (fun q =>
          (decide (S.toLowerCase (S.trim s.search) = "") ||
            matchesTerm S (S.toLowerCase (S.trim s.search)) q) &&
          (decide (s.statusFilter = "all") || decide (q.status = s.statusFilter))) := by
    unfold applySearch AppState.filtered
    simp only [(updateProgressStats_frame _).1, (updateProgressStats_frame _).2.1]
    by_cases ht : S.toLowerCase (S.trim s.search) = ""
    · by_cases hs : s.statusFilter = "all"
      · simp [ht, hs, filterMap_getElem?_range]
      · simp only [ht, hs, ne_eq, not_true_eq_false, if_false, not_false_eq_true, if_true,
          decide_True, decide_False, Bool.true_or, Bool.true_and, Bool.false_or]
        rw [filterMap_filter_refs s.questions (fun q => decide (q.status = s.statusFilter)),
          filterMap_getElem?_range]
        intro i q h
        simp only [h]
    · by_cases hs : s.statusFilter = "all"
      · simp only [ht, hs, ne_eq, not_true_eq_false, if_false, not_false_eq_true, if_true,
          decide_True, decide_False, Bool.false_or, Bool.or_true, Bool.and_true,
          Bool.true_or]
        rw [filterMap_filter_refs s.questions
            (fun q => matchesTerm S (S.toLowerCase (S.trim s.search)) q),
          filterMap_getElem?_range]
        intro i q h
        simp only [h]
      · simp only [ht, hs, ne_eq, not_false_eq_true, if_true, decide_False, Bool.false_or]
        rw [filterMap_filter_refs s.questions (fun q => decide (q.status = s.statusFilter)),
          filterMap_filter_refs s.questions
            (fun q => matchesTerm S (S.toLowerCase (S.trim s.search)) q),
          filterMap_getElem?_range, List.filter_filter]
        · apply List.filter_congr
          intro q _
          exact Bool.and_comm _ _
        · intro i q h
          simp only [h]
        · intro i q h
          simp only [h]
  refine ⟨?_, ?_, rfl, rfl, rfl, rfl⟩
  · rw [hmain]
    apply List.filter_congr
    intro q _
    simp only [matchesTerm, Bool.or_assoc]
  · rw [hmain]
    exact List.filter_sublist _

end App

/-! ## Normalization -/

namespace App

open ProgressTracker

theorem find?_eq_of_first {α : Type} (p : α → Bool) (pre : List α) (x : α) (post : List α)
    (hpre : ∀ a ∈ pre, p a = false) (hx : p x = true) :
    (pre ++ x :: post).find? p = some x := by
  induction pre with
  | nil => simp [List.find?_cons, hx]
  | cons a pre ih =>
    have ha : p a = false := hpre a (List.mem_cons_self _ _)
    simp only [List.cons_append, List.find?_cons, ha]
    exact ih (fun b hb => hpre b (List.mem_cons_of_mem _ hb))

theorem normalizeQuestion_fields (rand : Draws) (d : Store) (q : RawQuestion) :
    (normalizeQuestion rand d q).correct_answer
      = deriveCorrect (q.answers.getD []) q.correct_answer ∧
    (normalizeQuestion rand d q).question_german = q.question_german.orEmpty ∧
    (normalizeQuestion rand d q).question_english = q.question_english.orEmpty ∧
    (normalizeQuestion rand d q).question_arabic = q.question_arabic.orEmpty ∧
    (normalizeQuestion rand d q).image_path = q.image_path.orNull ∧
    (normalizeQuestion rand d q).answers
      = shuffle rand ((q.answers.getD []).map normalizeAnswer) := by
  have hans : (match q.answers with
      | some answers => answers
      | none => []) = q.answers.getD [] := by
    cases q.answers <;> rfl
  unfold normalizeQuestion
  simp only [hans]
  cases hn : q.question_number with
  | none => exact ⟨rfl, rfl, rfl, rfl, rfl, rfl⟩
  | some n =>
    simp only
    split <;> exact ⟨rfl, rfl, rfl, rfl, rfl, rfl⟩

/-- C16: the normalized `correct_answer` is the raw one when that is truthy;
otherwise it is the `letter` of the first answer, in source order, whose
`is_correct` is truthy, and it stays what it was (absent stays absent) when no
answer is flagged.  Missing prompt and answer texts become `''`, a missing
`image_path` becomes `null`. -/
theorem normalizeQuestion_spec (rand : Draws) (d : Store) (q : RawQuestion) :
    (q.correct_answer.truthy = true →
      (normalizeQuestion rand d q).correct_answer = q.correct_answer) ∧
    (q.correct_answer.truthy = false →
      ∀ (pre : List RawAnswer) (found : RawAnswer) (post : List RawAnswer),
        q.answers = some (pre ++ found :: post) →
        (∀ a ∈ pre, a.is_correct ≠ some true) → found.is_correct = some true →
        (normalizeQuestion rand d q).correct_answer = found.letter) ∧
    (q.correct_answer.truthy = false →
      (∀ a ∈ q.answers.getD [], a.is_correct ≠ some true) →
      (normalizeQuestion rand d q).correct_answer = q.correct_answer) ∧
    (q.correct_answer = .undefined →
      (∀ a ∈ q.answers.getD [], a.is_correct ≠ some true) →
      (normalizeQuestion rand d q).correct_answer = .undefined) ∧
    (∀ x : Text, x.truthy = false → x.orEmpty = "" ∧ x.orNull = .null) ∧
    (∀ x : Text, x.truthy = true → Text.str x.orEmpty = x ∧ x.orNull = x) ∧
    (normalizeQuestion rand d q).question_german = q.question_german.orEmpty ∧
    (normalizeQuestion rand d q).question_english = q.question_english.orEmpty ∧
    (normalizeQuestion rand d q).question_arabic = q.question_arabic.orEmpty ∧
    (normalizeQuestion rand d q).image_path = q.image_path.orNull ∧
    (normalizeQuestion rand d q).answers.Perm ((q.answers.getD []).map normalizeAnswer) ∧
    (∀ a : RawAnswer,
      (normalizeAnswer a).letter = a.letter ∧
      (normalizeAnswer a).text_german = a.text_german.orEmpty ∧
      (normalizeAnswer a).text_english = a.text_english.orEmpty ∧
      (normalizeAnswer a).text_arabic = a.text_arabic.orEmpty) := by
  obtain ⟨hc, hg, he, ha, hi, hans⟩ := normalizeQuestion_fields rand d q
  have hnone : (∀ a ∈ q.answers.getD [], a.is_correct ≠ some true) →
      (q.answers.getD []).find? (fun a => a.is_correct == some true) = none := by
    intro h
    rw [List.find?_eq_none]
    intro a ha
    simpa using h a ha
  refine ⟨?_, ?_, ?_, ?_, ?_, ?_, hg, he, ha, hi, ?_, fun a => ⟨rfl, rfl, rfl, rfl⟩⟩
  · intro ht
    rw [hc]
    simp [deriveCorrect, ht]
  · intro ht pre found post hq hpre hfound
    rw [hc, hq]
    simp only [deriveCorrect, ht, Bool.not_false, if_true, Option.getD_some]
    rw [find?_eq_of_first _ pre found post (fun a ha => by simpa using hpre a ha)
      (by simpa using hfound)]
  · intro ht hall
    rw [hc]
    simp only [deriveCorrect, ht, Bool.not_false, if_true, hnone hall]
  · intro hu hall
    rw [hc, hu]
    simp only [deriveCorrect, Text.truthy, Bool.not_false, if_true]
    rw [hnone hall]
  · intro x hx
    cases x with
    | undefined => exact ⟨rfl, rfl⟩
    | null => exact ⟨rfl, rfl⟩
    | str t =>
      simp only [Text.truthy, ne_eq, decide_not, Bool.not_eq_false', decide_eq_true_eq] at hx
      subst hx
      exact ⟨rfl, rfl⟩
  · intro x hx
    cases x with
    | undefined => simp [Text.truthy] at hx
    | null => simp [Text.truthy] at hx
    | str t =>
      have ht : t ≠ "" := by simpa [Text.truthy] using hx
      simp [Text.orEmpty, Text.orNull, Text.truthy, ht]
  · rw [hans]
    exact shuffle_perm_input rand _

theorem normalizeQuestion_spec_witness :
    (normalizeQuestion (fun _ => 0) empty
      { question_number := some 12, question_german := .str "Wer?",
        question_english := .undefined, question_arabic := .null,
        answers := some [⟨.str "A", .str "x", .undefined, .undefined, some false⟩,
                         ⟨.str "B", .str "y", .undefined, .undefined, some true⟩,
                         ⟨.str "C", .str "z", .undefined, .undefined, some true⟩],
        correct_answer := .undefined, image_path := .undefined }).correct_answer
      = .str "B" :=
  (normalizeQuestion_spec (fun _ => 0) empty
      { question_number := some 12, question_german := .str "Wer?",
        question_english := .undefined, question_arabic := .null,
        answers := some [⟨.str "A", .str "x", .undefined, .undefined, some false⟩,
                         ⟨.str "B", .str "y", .undefined, .undefined, some true⟩,
                         ⟨.str "C", .str "z", .undefined, .undefined, some true⟩],
        correct_answer := .undefined, image_path := .undefined }).2.1 rfl
    [⟨.str "A", .str "x", .undefined, .undefined, some false⟩]
    ⟨.str "B", .str "y", .undefined, .undefined, some true⟩
    [⟨.str "C", .str "z", .undefined, .undefined, some true⟩] rfl (by decide) rfl

end App

/-! ## Reveal and select -/

namespace App

open ProgressTracker

theorem recordAttempt_changes (d : Store) (n : Int) (c : Bool) (created now : String) :
    (recordAttempt d n c created now).1 ≠ d := by
  intro h
  have h1 := get_recordAttempt_self d n c created now
  rw [h] at h1
  have h2 : get d (key n) = some (applyAttempt ((get d (key n)).getD (freshProgress created)) c now) :=
    h1
  cases hg : get d (key n) with
  | none => rw [hg] at h2; simp at h2
  | some p =>
    rw [hg] at h2
    simp only [Option.getD_some, Option.some.injEq] at h2
    have h3 := congrArg Progress.attempts h2
    rw [applyAttempt_attempts] at h3
    omega

/-- `reveal` on an unrevealed question with a selected answer and a truthy
question number. -/
theorem reveal_recording (s : AppState) (i : Nat) (q : Question) (n : Int)
    (created now : String) (hq : s.questions[i]? = some q) (hrev : q.revealed = false)
    (hn : q.question_number = some n) (hsel : q.selected.truthy = true) (hn0 : n ≠ 0) :
    reveal s i created now =
      updateProgressStats (recalcStats
        { s with
          questions := s.questions.set i
            { q with
              revealed := true,
              progress := getQuestionProgress
                (recordAttempt s.data n (decide (q.selected = q.correct_answer)) created now).1
                n },
          data :=
            (recordAttempt s.data n (decide (q.selected = q.correct_answer)) created now).1 }) := by
  unfold reveal
  simp only [hq, hrev, hn, hsel, truthyNumber, hn0, ne_eq, not_false_eq_true, decide_True,
    Bool.and_self, if_true, Bool.false_eq_true, if_false, List.set_set]

/-- `reveal` on an unrevealed question without a selected answer or without a
truthy question number. -/
theorem reveal_not_recording (s : AppState) (i : Nat) (q : Question)
    (created now : String) (hq : s.questions[i]? = some q) (hrev : q.revealed = false)
    (hc : q.selected.truthy = false ∨ truthyNumber q.question_number = false) :
    reveal s i created now =
      updateProgressStats (recalcStats
        { s with questions := s.questions.set i { q with revealed := true } }) := by
  unfold reveal
  simp only [hq, hrev, Bool.false_eq_true, if_false]
  cases hn : q.question_number with
  | none => rfl
  | some n =>
    simp only
    rcases hc with h | h
    · simp [h]
    · rw [hn] at h
      simp [h]

end App

namespace App

open ProgressTracker

theorem getElem?_set_of_some {α : Type} (l : List α) (i : Nat) (x y : α)
    (h : l[i]? = some x) : (l.set i y)[i]? = some y := by
  have hi : i < l.length := by
    rcases Nat.lt_or_ge i l.length with h1 | h1
    · exact h1
    · rw [List.getElem?_eq_none h1] at h
      exact absurd h (by simp)
  exact List.getElem?_set_self hi

/-- What `reveal` does to an unrevealed question and to the tracker. -/
theorem reveal_unrevealed (s : AppState) (i : Nat) (q : Question) (created now : String)
    (hq : s.questions[i]? = some q) (hrev : q.revealed = false) :
    (∃ q', (reveal s i created now).questions[i]? = some q' ∧ q'.revealed = true ∧
      q'.selected = q.selected ∧ q'.correct_answer = q.correct_answer ∧
      q'.question_number = q.question_number ∧ q'.status = q.status) ∧
    (∀ n : Int, q.question_number = some n → n ≠ 0 → q.selected.truthy = true →
      (reveal s i created now).data
        = (recordAttempt s.data n (decide (q.selected = q.correct_answer)) created now).1) ∧
    ((q.selected.truthy = false ∨ truthyNumber q.question_number = false) →
      (reveal s i created now).data = s.data) := by
  have hsplit : (∃ n, q.question_number = some n ∧ n ≠ 0 ∧ q.selected.truthy = true) ∨
      (q.selected.truthy = false ∨ truthyNumber q.question_number = false) := by
    cases hsel : q.selected.truthy with
    | false => exact Or.inr (Or.inl rfl)
    | true =>
      cases hn : q.question_number with
      | none => exact Or.inr (Or.inr rfl)
      | some n =>
        by_cases h0 : n = 0
        · exact Or.inr (Or.inr (by simp [truthyNumber, h0]))
        · exact Or.inl ⟨n, rfl, h0, rfl⟩
  rcases hsplit with ⟨n, hn, hn0, hsel⟩ | hc
  · have hr := reveal_recording s i q n created now hq hrev hn hsel hn0
    refine ⟨⟨{ q with
        revealed := true,
        progress := getQuestionProgress
          (recordAttempt s.data n (decide (q.selected = q.correct_answer)) created now).1 n },
      ?_, rfl, rfl, rfl, rfl, rfl⟩, ?_, ?_⟩
    · rw [hr]
      exact getElem?_set_of_some s.questions i q _ hq
    · intro m hm _ _
      rw [hn] at hm
      cases hm
      rw [hr]
      rfl
    · intro hc
      rcases hc with h | h
      · rw [hsel] at h; exact absurd h (by simp)
      · rw [hn] at h
        simp [truthyNumber, hn0] at h
  · have hr := reveal_not_recording s i q created now hq hrev hc
    refine ⟨⟨{ q with revealed := true }, ?_, rfl, rfl, rfl, rfl, rfl⟩, ?_, ?_⟩
    · rw [hr]
      exact getElem?_set_of_some s.questions i q _ hq
    · intro m hm hm0 hsel
      rcases hc with h | h
      · rw [hsel] at h; exact absurd h (by simp)
      · rw [hm] at h
        simp [truthyNumber, hm0] at h
    · intro _
      rw [hr]
      rfl

theorem reveal_revealed (s : AppState) (i : Nat) (q : Question) (created now : String)
    (hq : s.questions[i]? = some q) (hrev : q.revealed = true) :
    reveal s i created now = s := by
  unfold reveal
  simp only [hq, hrev, if_true]

/-- C17: `reveal(q)` on an unrevealed `q` sets `revealed = true` and calls
`recordAttempt` once, with `isCorrect = (q.selected === q.correct_answer)`,
exactly when `q` has a truthy `selected` and a truthy `question_number`
(otherwise the store is unchanged); `reveal(q)` on a revealed `q` changes
nothing, so `reveal; reveal` equals `reveal`; and `selectAnswer` on a revealed
`q` changes nothing, in particular not `q.selected`. -/
theorem reveal_spec (s : AppState) (i : Nat) (q : Question) (created now : String)
    (hq : s.questions[i]? = some q) :
    (q.revealed = false →
      (∃ q', (reveal s i created now).questions[i]? = some q' ∧ q'.revealed = true ∧
        q'.selected = q.selected) ∧
      (∀ n : Int, q.question_number = some n → n ≠ 0 → q.selected.truthy = true →
        (reveal s i created now).data
          = (recordAttempt s.data n (decide (q.selected = q.correct_answer)) created now).1) ∧
      ((reveal s i created now).data = s.data ↔
        (q.selected.truthy = false ∨ truthyNumber q.question_number = false))) ∧
    (q.revealed = true → reveal s i created now = s) ∧
    (∀ created2 now2 : String,
      reveal (reveal s i created now) i created2 now2 = reveal s i created now) ∧
    (q.revealed = true → ∀ a : Answer, selectAnswer s i a = s) := by
  refine ⟨fun hrev => ?_, reveal_revealed s i q created now hq, fun created2 now2 => ?_,
    fun hrev a => ?_⟩
  · obtain ⟨⟨q', h1, h2, h3, _⟩, hrec, hnot⟩ := reveal_unrevealed s i q created now hq hrev
    refine ⟨⟨q', h1, h2, h3⟩, hrec, ⟨fun hdata => ?_, hnot⟩⟩
    by_contra hcon
    simp only [not_or, Bool.not_eq_false] at hcon
    obtain ⟨hsel, hnum⟩ := hcon
    cases hn : q.question_number with
    | none => rw [hn] at hnum; simp [truthyNumber] at hnum
    | some n =>
      rw [hn] at hnum
      have hn0 : n ≠ 0 := by simpa [truthyNumber] using hnum
      rw [hrec n hn hn0 hsel] at hdata
      exact recordAttempt_changes _ _ _ _ _ hdata
  · cases hrev : q.revealed with
    | true =>
      rw [reveal_revealed s i q created now hq hrev]
      exact reveal_revealed s i q created2 now2 hq hrev
    | false =>
      obtain ⟨⟨q', h1, h2, _⟩, _, _⟩ := reveal_unrevealed s i q created now hq hrev
      exact reveal_revealed _ i q' created2 now2 h1 h2
  · unfold selectAnswer
    simp only [hq, hrev, if_true]

theorem reveal_spec_witness :
    ∃ q', (reveal
        { questions :=
            [{ question_number := some 5, question_german := "", question_english := "",
               question_arabic := "", answers := [], correct_answer := .str "B",
               image_path := .null, selected := .str "B", revealed := false,
               showAll := false, progress := none, status := "new" }],
          filteredQuestions := [0], search := "", statusFilter := "all",
          answeredCount := 1, revealedCount := 0, correctCount := 0,
          progressStats := getStatsForQuestions empty [5], data := empty }
        0 "t1" "t2").questions[0]? = some q' ∧ q'.revealed = true ∧
      q'.selected = .str "B" :=
  ((reveal_spec
      { questions :=
          [{ question_number := some 5, question_german := "", question_english := "",
             question_arabic := "", answers := [], correct_answer := .str "B",
             image_path := .null, selected := .str "B", revealed := false,
             showAll := false, progress := none, status := "new" }],
        filteredQuestions := [0], search := "", statusFilter := "all",
        answeredCount := 1, revealedCount := 0, correctCount := 0,
        progressStats := getStatsForQuestions empty [5], data := empty }
      0 _ "t1" "t2" rfl).1 rfl).1

/-- C18 (fails on the code): a question loaded while the tracker has no record
of it is annotated `'new'`; after an answer is selected and revealed the
tracker reports `'attempted'`, the refreshed `q.progress` shows the attempt,
and `q.status` is still `'new'`. -/
theorem status_stale_after_reveal :
    ∃ q', (reveal
        (selectAnswer
          { questions :=
              [normalizeQuestion (fun _ => 0) empty
                { question_number := some 1, question_german := .str "Wer?",
                  question_english := .undefined, question_arabic := .undefined,
                  answers := some [⟨.str "A", .str "x", .undefined, .undefined, some true⟩],
                  correct_answer := .str "A", image_path := .undefined }],
            filteredQuestions := [0], search := "", statusFilter := "all",
            answeredCount := 0, revealedCount := 0, correctCount := 0,
            progressStats := getStatsForQuestions empty [1], data := empty }
          0 ⟨.str "A", "x", "", "", true⟩)
        0 "t1" "t2").questions[0]? = some q' ∧
      q'.question_number = some 1 ∧
      q'.status = "new" ∧
      q'.progress = some { attempts := 1, correct := 1, incorrect := 0,
                           lastAttempt := some "t2", mastered := false,
                           firstAttempt := some "t1" } ∧
      getQuestionStatus
        (reveal
          (selectAnswer
            { questions :=
                [normalizeQuestion (fun _ => 0) empty
                  { question_number := some 1, question_german := .str "Wer?",
                    question_english := .undefined, question_arabic := .undefined,
                    answers := some [⟨.str "A", .str "x", .undefined, .undefined, some true⟩],
                    correct_answer := .str "A", image_path := .undefined }],
              filteredQuestions := [0], search := "", statusFilter := "all",
              answeredCount := 0, revealedCount := 0, correctCount := 0,
              progressStats := getStatsForQuestions empty [1], data := empty }
            0 ⟨.str "A", "x", "", "", true⟩)
          0 "t1" "t2").data 1 = "attempted" := by
  exact ⟨_, rfl, rfl, rfl, rfl, rfl⟩

end App

/-! ## Escaping HTML -/

namespace App

theorem replaceChar_append (c : Char) (rep : List Char) (a b : List Char) :
    replaceChar c rep (a ++ b) = replaceChar c rep a ++ replaceChar c rep b := by
  induction a with
  | nil => rfl
  | cons x xs ih =>
    rw [List.cons_append, replaceChar, replaceChar, ih, List.append_assoc]

theorem replaceChar_of_not_mem (c : Char) (rep : List Char) (a : List Char) (h : c ∉ a) :
    replaceChar c rep a = a := by
  induction a with
  | nil => rfl
  | cons x xs ih =>
    simp only [List.mem_cons, not_or] at h
    simp only [replaceChar, if_neg (Ne.symm h.1), ih h.2, List.singleton_append]

/-- The three replacements of `escapeHtml` amount to one character-wise pass. -/
theorem escapeHtml_data (str : String) :
    (escapeHtml str).data = encodeChars true true str.data := by
  unfold escapeHtml
  simp only
  induction str.data with
  | nil => rfl
  | cons c cs ih =>
    simp only [encodeChars, encodeChar, and_true]
    rw [← ih]
    by_cases h1 : c = '&'
    · subst h1
      simp only [replaceChar, if_true, replaceChar_append]
      rfl
    · by_cases h2 : c = '<'
      · subst h2
        simp only [replaceChar, if_true, replaceChar_append, h1, if_false,
          List.singleton_append, List.cons_append, List.nil_append]
        rfl
      · by_cases h3 : c = '>'
        · subst h3
          simp only [replaceChar, if_true, replaceChar_append, h1, h2, if_false,
            List.singleton_append, List.cons_append, List.nil_append]
          rfl
        · simp only [replaceChar, h1, h2, h3, if_false, List.singleton_append,
            List.cons_append, List.nil_append]

theorem not_mem_encodeChars (x : Char) (hx : x = '<' ∨ x = '>') (cs : List Char) :
    x ∉ encodeChars true true cs := by
  induction cs with
  | nil => simp [encodeChars]
  | cons c cs ih =>
    simp only [encodeChars, List.mem_append, not_or]
    refine ⟨?_, ih⟩
    unfold encodeChar
    simp only [and_true]
    split_ifs with h1 h2 h3
    · rcases hx with h | h <;> subst h <;> decide
    · rcases hx with h | h <;> subst h <;> decide
    · rcases hx with h | h <;> subst h <;> decide
    · simp only [List.mem_singleton]
      rcases hx with h | h
      · subst h; exact fun h => h2 h.symm
      · subst h; exact fun h => h3 h.symm

theorem ampersandsOk_encodeChars (cs : List Char) :
    AmpersandsOk (encodeChars true true cs) := by
  induction cs with
  | nil => trivial
  | cons c cs ih =>
    simp only [encodeChars, encodeChar, and_true]
    split_ifs with h1 h2 h3
    · exact ⟨fun _ => Or.inl ⟨_, rfl⟩, fun h => absurd h (by decide),
        fun h => absurd h (by decide), fun h => absurd h (by decide),
        fun h => absurd h (by decide), ih⟩
    · exact ⟨fun _ => Or.inr (Or.inl ⟨_, rfl⟩), fun h => absurd h (by decide),
        fun h => absurd h (by decide), fun h => absurd h (by decide), ih⟩
    · exact ⟨fun _ => Or.inr (Or.inr ⟨_, rfl⟩), fun h => absurd h (by decide),
        fun h => absurd h (by decide), fun h => absurd h (by decide), ih⟩
    · exact ⟨fun h => absurd h h1, ih⟩

theorem ampersandsOk_split (l : List Char) (h : AmpersandsOk l) :
    ∀ pre post : List Char, l = pre ++ '&' :: post → entityFollows post := by
  intro pre
  induction pre generalizing l with
  | nil =>
    intro post hl
    subst hl
    exact h.1 rfl
  | cons x pre ih =>
    intro post hl
    subst hl
    exact ih _ h.2 post rfl

end App

namespace App

theorem replaceAll_succ_cons (pat rep : List Char) (fuel : Nat) (c : Char) (cs : List Char) :
    replaceAll pat rep (fuel + 1) (c :: cs) =
      if pat ≠ [] ∧ pat <+: c :: cs then
        rep ++ replaceAll pat rep fuel ((c :: cs).drop pat.length)
      else c :: replaceAll pat rep fuel cs := rfl

theorem replaceAll_nil (pat rep : List Char) (fuel : Nat) :
    replaceAll pat rep fuel [] = [] := by
  cases fuel <;> rfl

theorem replaceAll_skip (pat rep : List Char) (fuel : Nat) (c : Char) (cs : List Char)
    (h : pat.head? ≠ some c) :
    replaceAll pat rep (fuel + 1) (c :: cs) = c :: replaceAll pat rep fuel cs := by
  rw [replaceAll_succ_cons, if_neg]
  rintro ⟨hne, hpre⟩
  cases pat with
  | nil => exact hne rfl
  | cons p ps =>
    rw [List.cons_prefix_cons] at hpre
    exact h (by rw [List.head?_cons, hpre.1])

theorem length_encodeChar_pos (lt gt : Bool) (c : Char) : 0 < (encodeChar lt gt c).length := by
  unfold encodeChar
  split_ifs <;> simp

/-- Decoding `&lt;` undoes the escaping of `<` and touches nothing else. -/
theorem replaceAll_lt (cs : List Char) : ∀ fuel : Nat,
    (encodeChars true true cs).length ≤ fuel →
    replaceAll ['&', 'l', 't', ';'] ['<'] fuel (encodeChars true true cs)
      = encodeChars false true cs := by
  induction cs with
  | nil => intro fuel _; exact replaceAll_nil _ _ _
  | cons c cs ih =>
    intro fuel hf
    simp only [encodeChars, List.length_append] at hf ⊢
    by_cases h1 : c = '&'
    · subst h1
      have he : ∀ lt gt, encodeChar lt gt '&' = ['&', 'a', 'm', 'p', ';'] := fun _ _ => rfl
      simp only [he, List.length_cons, List.length_nil] at hf ⊢
      obtain ⟨f, rfl⟩ : ∃ f, fuel = f + 5 := ⟨fuel - 5, by omega⟩
      simp only [List.cons_append, List.nil_append]
      rw [replaceAll_succ_cons, if_neg (by simp [List.cons_prefix_cons]),
        replaceAll_skip _ _ _ 'a' _ (by decide), replaceAll_skip _ _ _ 'm' _ (by decide),
        replaceAll_skip _ _ _ 'p' _ (by decide), replaceAll_skip _ _ _ ';' _ (by decide),
        ih f (by omega)]
    · by_cases h2 : c = '<'
      · subst h2
        have he1 : encodeChar true true '<' = ['&', 'l', 't', ';'] := rfl
        have he2 : encodeChar false true '<' = ['<'] := rfl
        simp only [he1, he2, List.length_cons, List.length_nil] at hf ⊢
        obtain ⟨f, rfl⟩ : ∃ f, fuel = f + 1 := ⟨fuel - 1, by omega⟩
        simp only [List.cons_append, List.nil_append]
        rw [replaceAll_succ_cons, if_pos ⟨by simp, ⟨_, rfl⟩⟩]
        simp only [List.length_cons, List.length_nil, List.drop_succ_cons, List.drop_zero,
          List.cons_append, List.nil_append]
        rw [ih f (by omega)]
      · have he : encodeChar true true c = encodeChar false true c := by
          simp [encodeChar, h1, h2]
        have hhead : ∃ x t, encodeChar false true c = x :: t ∧
            (t = [] ∨ t = ['g', 't', ';']) ∧ (x = '&' → t = ['g', 't', ';']) := by
          unfold encodeChar
          by_cases h3 : c = '>'
          · exact ⟨'&', _, by simp [h1, h2, h3], Or.inr rfl, fun _ => rfl⟩
          · exact ⟨c, [], by simp [h1, h2, h3], Or.inl rfl, fun h => absurd h h1⟩
        obtain ⟨x, t, hxt, ht, hx⟩ := hhead
        rw [he, hxt] at hf ⊢
        rcases ht with ht | ht
        · subst ht
          have hxne : x ≠ '&' := fun h => by simpa using hx h
          simp only [List.length_cons, List.length_nil] at hf
          obtain ⟨f, rfl⟩ : ∃ f, fuel = f + 1 := ⟨fuel - 1, by omega⟩
          simp only [List.cons_append, List.nil_append]
          rw [replaceAll_skip _ _ _ x _ (by simpa using Ne.symm hxne), ih f (by omega)]
        · subst ht
          simp only [List.length_cons, List.length_nil] at hf
          obtain ⟨f, rfl⟩ : ∃ f, fuel = f + 4 := ⟨fuel - 4, by omega⟩
          simp only [List.cons_append, List.nil_append]
          rw [replaceAll_succ_cons, if_neg (by simp [List.cons_prefix_cons]),
            replaceAll_skip _ _ _ 'g' _ (by decide), replaceAll_skip _ _ _ 't' _ (by decide),
            replaceAll_skip _ _ _ ';' _ (by decide), ih f (by omega)]

end App

namespace App

/-- Decoding `&gt;` undoes the escaping of `>` and touches nothing else. -/
theorem replaceAll_gt (cs : List Char) : ∀ fuel : Nat,
    (encodeChars false true cs).length ≤ fuel →
    replaceAll ['&', 'g', 't', ';'] ['>'] fuel (encodeChars false true cs)
      = encodeChars false false cs := by
  induction cs with
  | nil => intro fuel _; exact replaceAll_nil _ _ _
  | cons c cs ih =>
    intro fuel hf
    simp only [encodeChars, List.length_append] at hf ⊢
    by_cases h1 : c = '&'
    · subst h1
      have he : ∀ lt gt, encodeChar lt gt '&' = ['&', 'a', 'm', 'p', ';'] := fun _ _ => rfl
      simp only [he, List.length_cons, List.length_nil] at hf ⊢
      obtain ⟨f, rfl⟩ : ∃ f, fuel = f + 5 := ⟨fuel - 5, by omega⟩
      simp only [List.cons_append, List.nil_append]
      rw [replaceAll_succ_cons, if_neg (by simp [List.cons_prefix_cons]),
        replaceAll_skip _ _ _ 'a' _ (by decide), replaceAll_skip _ _ _ 'm' _ (by decide),
        replaceAll_skip _ _ _ 'p' _ (by decide), replaceAll_skip _ _ _ ';' _ (by decide),
        ih f (by omega)]
    · by_cases h3 : c = '>'
      · subst h3
        have he1 : encodeChar false true '>' = ['&', 'g', 't', ';'] := rfl
        have he2 : encodeChar false false '>' = ['>'] := rfl
        simp only [he1, he2, List.length_cons, List.length_nil] at hf ⊢
        obtain ⟨f, rfl⟩ : ∃ f, fuel = f + 1 := ⟨fuel - 1, by omega⟩
        simp only [List.cons_append, List.nil_append]
        rw [replaceAll_succ_cons, if_pos ⟨by simp, ⟨_, rfl⟩⟩]
        simp only [List.length_cons, List.length_nil, List.drop_succ_cons, List.drop_zero,
          List.cons_append, List.nil_append]
        rw [ih f (by omega)]
      · have he1 : encodeChar false true c = [c] := by simp [encodeChar, h1, h3]
        have he2 : encodeChar false false c = [c] := by simp [encodeChar, h1]
        simp only [he1, he2, List.length_cons, List.length_nil] at hf ⊢
        obtain ⟨f, rfl⟩ : ∃ f, fuel = f + 1 := ⟨fuel - 1, by omega⟩
        simp only [List.cons_append, List.nil_append]
        rw [replaceAll_skip _ _ _ c _ (by simpa using Ne.symm h1), ih f (by omega)]

/-- Decoding `&amp;` undoes the escaping of `&`. -/
theorem replaceAll_amp (cs : List Char) : ∀ fuel : Nat,
    (encodeChars false false cs).length ≤ fuel →
    replaceAll ['&', 'a', 'm', 'p', ';'] ['&'] fuel (encodeChars false false cs) = cs := by
  induction cs with
  | nil => intro fuel _; exact replaceAll_nil _ _ _
  | cons c cs ih =>
    intro fuel hf
    simp only [encodeChars, List.length_append] at hf ⊢
    by_cases h1 : c = '&'
    · subst h1
      have he : encodeChar false false '&' = ['&', 'a', 'm', 'p', ';'] := rfl
      simp only [he, List.length_cons, List.length_nil] at hf ⊢
      obtain ⟨f, rfl⟩ : ∃ f, fuel = f + 1 := ⟨fuel - 1, by omega⟩
      simp only [List.cons_append, List.nil_append]
      rw [replaceAll_succ_cons, if_pos ⟨by simp, ⟨_, rfl⟩⟩]
      simp only [List.length_cons, List.length_nil, List.drop_succ_cons, List.drop_zero,
        List.cons_append, List.nil_append]
      rw [ih f (by omega)]
    · have he : encodeChar false false c = [c] := by simp [encodeChar, h1]
      simp only [he, List.length_cons, List.length_nil] at hf ⊢
      obtain ⟨f, rfl⟩ : ∃ f, fuel = f + 1 := ⟨fuel - 1, by omega⟩
      simp only [List.cons_append, List.nil_append]
      rw [replaceAll_skip _ _ _ c _ (by simpa using Ne.symm h1), ih f (by omega)]

/-- C20: for every string `s`, `escapeHtml(s)` contains no `<` and no `>`, every
`&` in it is immediately followed by `amp;`, `lt;` or `gt;`, and replacing
`&lt;` by `<`, `&gt;` by `>` and then `&amp;` by `&` gives back `s`. -/
theorem escapeHtml_spec (s : String) :
    '<' ∉ (escapeHtml s).data ∧
    '>' ∉ (escapeHtml s).data ∧
    (∀ pre post : List Char, (escapeHtml s).data = pre ++ '&' :: post →
      ['a', 'm', 'p', ';'] <+: post ∨ ['l', 't', ';'] <+: post ∨ ['g', 't', ';'] <+: post) ∧
    unescapeHtml (escapeHtml s) = s := by
  refine ⟨?_, ?_, ?_, ?_⟩
  · rw [escapeHtml_data]
    exact not_mem_encodeChars '<' (Or.inl rfl) _
  · rw [escapeHtml_data]
    exact not_mem_encodeChars '>' (Or.inr rfl) _
  · intro pre post h
    rw [escapeHtml_data] at h
    exact ampersandsOk_split _ (ampersandsOk_encodeChars s.data) pre post h
  · unfold unescapeHtml
    simp only [escapeHtml_data]
    rw [replaceAll_lt s.data _ (Nat.le_refl _), replaceAll_gt s.data _ (Nat.le_refl _),
      replaceAll_amp s.data _ (Nat.le_refl _)]

end App

namespace App

theorem escapeHtml_spec_witness :
    (escapeHtml "<b>&").data
      = [] ++ '&' :: ['l', 't', ';', 'b', '&', 'g', 't', ';', '&', 'a', 'm', 'p', ';'] ∧
    (['a', 'm', 'p', ';'] <+: ['l', 't', ';', 'b', '&', 'g', 't', ';', '&', 'a', 'm', 'p', ';'] ∨
      ['l', 't', ';'] <+: ['l', 't', ';', 'b', '&', 'g', 't', ';', '&', 'a', 'm', 'p', ';'] ∨
      ['g', 't', ';'] <+: ['l', 't', ';', 'b', '&', 'g', 't', ';', '&', 'a', 'm', 'p', ';']) :=
  ⟨rfl, (escapeHtml_spec "<b>&").2.2.1 [] _ rfl⟩

end App
